import Mathlib

/-!
MCP-ExcelAutoCpp: cell-address codec and cell-instruction interpreter.

A shallow embedding of the address codec (`s_colNumberToLetters`, `s_getCellAddress`,
`s_colLettersToNumber`, `s_cellAddressToRowCol`), the colour decoder (`s_hexToRgb`) and the
instruction loop of `set_cells_by_array_handler` from `src/main.cpp`, followed by theorems
about them.

Conventions of the embedding:

* a `std::string` is the list of its bytes (`Str`, each element a number below 256);
* `uint32_t` values are natural numbers, reduced `% 2 ^ 32` wherever the C++ arithmetic can wrap;
* `size_t` values are natural numbers, `npos` is `2 ^ 64 - 1`, and a `size_t` subtraction is
  reduced `% 2 ^ 64`; theorems on whole instructions assume a length below `npos`, which
  holds of every `std::string`;
* the width of `long` / `unsigned long` differs between platforms, so `ULONG_MAX` is an explicit
  argument (`LONG_MAX` is `ULONG_MAX / 2`);
* C++ exceptions are the `Except.error` results of `Except StdException _`;
* the calls made on the spreadsheet backend `g_excel_operator` are recorded as a list of `Call`s.
-/

namespace ExcelAutoCpp

/-! ## Strings and characters -/

/-- A `std::string`: the list of its bytes. -/
abbrev Str := List Nat

/-- The bytes of an ASCII literal (for ASCII text the code points are the bytes). -/
def ascii (s : String) : Str := s.toList.map Char.toNat

/-- The function `std::isalpha` in the "C" locale (no byte above 127 is alphabetic). -/
def isalpha (c : Nat) : Bool := (65 ≤ c && c ≤ 90) || (97 ≤ c && c ≤ 122)

/-- The function `std::isdigit`. -/
def isdigit (c : Nat) : Bool := 48 ≤ c && c ≤ 57

/-- The function `std::isspace` in the "C" locale. -/
def isspace (c : Nat) : Bool := c = 32 || (9 ≤ c && c ≤ 13)

/-- The function `std::toupper` in the "C" locale. -/
def toupper (c : Nat) : Nat := if 97 ≤ c ∧ c ≤ 122 then c - 32 else c

/-- The exceptions of the standard library that the code can meet. -/
inductive StdException where
  | invalid_argument
  | out_of_range
  deriving DecidableEq

deriving instance DecidableEq for Except

/-- The value `std::string::npos` (`size_t` taken as 64 bits wide). -/
def npos : Nat := 18446744073709551615

/-- Search of `ch` in the remaining bytes of a string, `i` being the index of the first one. -/
def findFrom (ch : Nat) : Str → Nat → Nat
  | [], _ => npos
  | c :: rest, i => if c = ch then i else findFrom ch rest (i + 1)

/-- The call `s.find(ch, pos)`: the first index `≥ pos` holding `ch`, or `npos`. -/
def find (s : Str) (ch : Nat) (pos : Nat) : Nat := findFrom ch (s.drop pos) pos

/-- Search of the byte string `pat` in the remaining bytes of a string. -/
def findStrFrom (pat : Str) : Str → Nat → Nat
  | [], i => if pat = [] then i else npos
  | c :: rest, i => if pat.isPrefixOf (c :: rest) then i else findStrFrom pat rest (i + 1)

/-- The call `s.find(pat)` with a string argument: index of the first occurrence, or `npos`. -/
def findStr (s pat : Str) : Nat := findStrFrom pat s 0

/-- A `size_t` subtraction `a - b`, which wraps around modulo `2 ^ 64`. -/
def sizeSub (a b : Nat) : Nat := (a + 18446744073709551616 - b) % 18446744073709551616

/-- The call `s.substr(pos, count)`: throws `std::out_of_range` when `pos > s.size()`, and
otherwise gives the bytes `[pos, min (pos + count) size)`. -/
def substr (s : Str) (pos count : Nat) : Except StdException Str :=
  if pos > s.length then .error .out_of_range else .ok ((s.drop pos).take count)

/-- Decimal digits of `n`, most significant first, pushed in front of `acc`. -/
def to_string.loop : Nat → Nat → Str → Str
  | 0, _, acc => acc
  | fuel + 1, n, acc =>
    if n / 10 = 0 then (48 + n % 10) :: acc
    else to_string.loop fuel (n / 10) ((48 + n % 10) :: acc)

/-- The function `std::to_string` on an unsigned value: its decimal numeral. -/
def to_string (n : Nat) : Str := to_string.loop (n + 1) n []

/-- Value of a digit character as `strtol` and `strtoul` read it: `0-9` count 0 to 9 and
letters count from 10 in either case; any other byte gets 36, a digit of no base. -/
def digitValue (c : Nat) : Nat :=
  if isdigit c then c - 48
  else if 97 ≤ c ∧ c ≤ 122 then c - 97 + 10
  else if 65 ≤ c ∧ c ≤ 90 then c - 65 + 10
  else 36

/-- Whether `c` is a digit of base `base`. -/
def isDigitOf (base : Nat) (c : Nat) : Bool := digitValue c < base

/-- Value of a list of digits of base `base`, most significant first. -/
def digitsValue (base : Nat) (ds : Str) : Nat :=
  ds.foldl (fun a c => a * base + digitValue c) 0

/-- Sign prefix of `strtol` / `strtoul`: whether a minus sign was read, and what follows. -/
def readSign : Str → Bool × Str
  | 45 :: rest => (true, rest)
  | 43 :: rest => (false, rest)
  | s => (false, s)

/-- The function `std::stoul(s)` (base 10): leading white space and a sign are skipped, the
longest run of digits is read; no digit gives `std::invalid_argument`, a value above
`ULONG_MAX` gives `std::out_of_range`, and a minus sign negates in `unsigned long`. -/
def stoul (ULONG_MAX : Nat) (s : Str) : Except StdException Nat :=
  let (neg, s2) := readSign (s.dropWhile isspace)
  let ds := s2.takeWhile (isDigitOf 10)
  if ds.isEmpty then .error .invalid_argument
  else
    let v := digitsValue 10 ds
    if v > ULONG_MAX then .error .out_of_range
    else .ok (if neg then (ULONG_MAX + 1 - v) % (ULONG_MAX + 1) else v)

/-- The optional `0x` / `0X` prefix of base 16, taken only when a hex digit follows it. -/
def skipHexPrefix : Str → Str
  | 48 :: x :: d :: rest =>
    if (x = 120 ∨ x = 88) ∧ isDigitOf 16 d then d :: rest else 48 :: x :: d :: rest
  | s => s

/-- The function `std::stol(s, nullptr, 16)`: leading white space, a sign and a `0x` prefix are
skipped, the longest run of hex digits is read and what follows it is ignored; no digit gives
`std::invalid_argument`, a value outside `long` gives `std::out_of_range`. -/
def stol16 (ULONG_MAX : Nat) (s : Str) : Except StdException Int :=
  let (neg, s2) := readSign (s.dropWhile isspace)
  let ds := (skipHexPrefix s2).takeWhile (isDigitOf 16)
  if ds.isEmpty then .error .invalid_argument
  else
    let v := digitsValue 16 ds
    if neg then
      if v > ULONG_MAX / 2 + 1 then .error .out_of_range else .ok (-(v : Int))
    else
      if v > ULONG_MAX / 2 then .error .out_of_range else .ok (v : Int)

/-! ## Address codec -/

/-- The `while (col_num > 0)` loop of `s_colNumberToLetters`, on the state
`(col_num, col_letters)`; `fuel` bounds the number of iterations. -/
def s_colNumberToLetters.loop : Nat → Nat → Str → Nat × Str
  | 0, col_num, col_letters => (col_num, col_letters)
  | fuel + 1, col_num, col_letters =>
    if col_num > 0 then
      let rem := col_num % 26
      if rem = 0 then
        s_colNumberToLetters.loop fuel (col_num / 26 - 1) (col_letters ++ [90])
      else
        s_colNumberToLetters.loop fuel (col_num / 26) (col_letters ++ [(rem - 1) + 65])
    else (col_num, col_letters)

/-- Column number to column letters (1 -> A, 27 -> AA). -/
def s_colNumberToLetters (col_num : Nat) : Str :=
  let st := s_colNumberToLetters.loop col_num col_num []
  if st.2.isEmpty ∧ st.1 ≤ 0 then []
  else st.2.reverse

/-- Cell address string of `(row, col)`; `invalid_address` is the translated text
`i18n::t("result.invalid_address")`. -/
def s_getCellAddress (invalid_address : Str) (row col : Nat) : Str :=
  if row = 0 ∨ col = 0 then invalid_address
  else s_colNumberToLetters col ++ to_string row

/-- The `for (char c : col_letters)` loop of `s_colLettersToNumber` from the value `col_num`,
in `uint32_t` arithmetic. -/
def s_colLettersToNumber.loop (col_num : Nat) : Str → Nat
  | [] => col_num
  | c :: rest =>
    if !isalpha c then 0
    else s_colLettersToNumber.loop ((col_num * 26 + (toupper c - 65 + 1)) % 4294967296) rest

/-- Column letters to column number (A -> 1, AA -> 27). -/
def s_colLettersToNumber (col_letters : Str) : Nat := s_colLettersToNumber.loop 0 col_letters

/-- One step of the scan of `s_cellAddressToRowCol` on `(col_letters, row_digits)`. -/
def s_cellAddressToRowCol.step (st : Str × Str) (c : Nat) : Str × Str :=
  if isalpha c then (st.1 ++ [c], st.2)
  else if isdigit c then (st.1, st.2 ++ [c])
  else st

/-- Row and column of an address string; `(0, 0)` is the invalid address. -/
def s_cellAddressToRowCol (ULONG_MAX : Nat) (address : Str) : Nat × Nat :=
  let st := address.foldl s_cellAddressToRowCol.step ([], [])
  let col_letters := st.1
  let row_digits := st.2
  if col_letters.isEmpty ∨ row_digits.isEmpty then (0, 0)
  else
    match stoul ULONG_MAX row_digits with
    | .error _ => (0, 0)
    | .ok v =>
      let row := v % 4294967296
      let col := s_colLettersToNumber col_letters
      (row, col)

/-! ## Colour decoder -/

/-- Hex colour string to RGB components; black for an invalid format. Only
`std::invalid_argument` is caught, any other exception leaves the function. -/
def s_hexToRgb (ULONG_MAX : Nat) (hex : Str) : Except StdException (Nat × Nat × Nat) :=
  if hex.length ≠ 6 then .ok (0, 0, 0)
  else
    let body : Except StdException (Nat × Nat × Nat) :=
      (substr hex 0 2).bind fun s0 => (stol16 ULONG_MAX s0).bind fun r =>
      (substr hex 2 2).bind fun s1 => (stol16 ULONG_MAX s1).bind fun g =>
      (substr hex 4 2).bind fun s2 => (stol16 ULONG_MAX s2).bind fun b =>
      .ok ((r % 256).toNat, (g % 256).toNat, (b % 256).toNat)
    match body with
    | .error .invalid_argument => .ok (0, 0, 0)
    | other => other

/-! ## The instruction loop of `set_cells_by_array_handler` -/

/-- A call made on the spreadsheet backend `g_excel_operator`. -/
inductive Call where
  | setCellValue (address content : Str)
  | setCellAlignment (row col : Nat) (horizontal vertical : Str)
  | setCellFontBold (row col : Nat) (bold : Bool)
  | setCellFontItalic (row col : Nat) (italic : Bool)
  | setCellFontUnderline (row col : Nat) (underline : Bool)
  | setCellFontColor (row col r g b : Nat)
  | setCellBackgroundColor (row col r g b : Nat)
  deriving DecidableEq

/-- The local variables of one iteration after the field extraction. -/
structure Fields where
  content_end : Nat
  content : Str
  address : Str
  style : Str
  fg_color : Str
  bg_color : Str
  deriving DecidableEq

/-- Field extraction of one iteration; `none` is the `continue` taken when no `@` is found.
The additions `pos + 1` are made on found positions and cannot wrap. -/
def extractFields (instruction : Str) : Except StdException (Option Fields) :=
  let content_start := find instruction 39 0
  let content_end :=
    if content_start ≠ npos then find instruction 39 (content_start + 1) else npos
  (if content_start ≠ npos ∧ content_end ≠ npos then
      substr instruction (content_start + 1) (sizeSub (sizeSub content_end content_start) 1)
    else .ok []).bind fun content =>
  let at_pos := find instruction 64 0
  if at_pos = npos then .ok none
  else
    let hash_pos := find instruction 35 at_pos
    let dollar_pos := find instruction 36 at_pos
    let percent_pos := find instruction 37 at_pos
    let address_end := min hash_pos (min dollar_pos (min percent_pos instruction.length))
    (substr instruction (at_pos + 1) (sizeSub address_end (at_pos + 1))).bind fun address =>
    (if hash_pos ≠ npos then
        let style_end := min dollar_pos (min percent_pos instruction.length)
        substr instruction (hash_pos + 1) (sizeSub style_end (hash_pos + 1))
      else .ok []).bind fun style =>
    (if dollar_pos ≠ npos then
        let fg_color_end := min percent_pos instruction.length
        substr instruction (dollar_pos + 1) (sizeSub fg_color_end (dollar_pos + 1))
      else .ok []).bind fun fg_color =>
    (if percent_pos ≠ npos then substr instruction (percent_pos + 1) npos
      else .ok []).bind fun bg_color =>
    .ok (some
      { content_end := content_end, content := content, address := address, style := style,
        fg_color := fg_color, bg_color := bg_color })

/-- UTF-8 bytes of the right-pointing glyph (U+27A1 U+FE0F). -/
def glyphRight : Str := [226, 158, 161, 239, 184, 143]

/-- UTF-8 bytes of the left-pointing glyph (U+2B05 U+FE0F). -/
def glyphLeft : Str := [226, 172, 133, 239, 184, 143]

/-- UTF-8 bytes of the double-headed glyph (U+2194 U+FE0F). -/
def glyphCenter : Str := [226, 134, 148, 239, 184, 143]

/-- The backend calls of the block "2. Set style", in program order. -/
def styleCalls (row col : Nat) (style : Str) : List Call :=
  (if findStr style glyphRight ≠ npos then
      [Call.setCellAlignment row col (ascii "right") []] else []) ++
  (if findStr style glyphLeft ≠ npos then
      [Call.setCellAlignment row col (ascii "left") []] else []) ++
  (if findStr style glyphCenter ≠ npos then
      [Call.setCellAlignment row col (ascii "center") []] else []) ++
  (if find style 66 0 ≠ npos then [Call.setCellFontBold row col true] else []) ++
  (if find style 98 0 ≠ npos then [Call.setCellFontBold row col false] else []) ++
  (if find style 73 0 ≠ npos then [Call.setCellFontItalic row col true] else []) ++
  (if find style 105 0 ≠ npos then [Call.setCellFontItalic row col false] else []) ++
  (if find style 85 0 ≠ npos then [Call.setCellFontUnderline row col true] else []) ++
  (if find style 117 0 ≠ npos then [Call.setCellFontUnderline row col false] else [])

/-- How one iteration of the loop ends: one of the two `continue`s, or the end of the body
with the backend calls it made for the cell `(row, col)`. -/
inductive Outcome where
  | MissingAddress
  | InvalidAddress
  | applied (row col : Nat) (calls : List Call)
  deriving DecidableEq

/-- Address decoding and steps 1 to 4 of one iteration, on the extracted fields. -/
def applyFields (ULONG_MAX : Nat) (f : Fields) : Except StdException Outcome :=
  let rc := s_cellAddressToRowCol ULONG_MAX f.address
  let row := rc.1
  let col := rc.2
  if row = 0 ∨ col = 0 then .ok .InvalidAddress
  else
    let c1 := if f.content_end ≠ npos then [Call.setCellValue f.address f.content] else []
    let c2 := if ¬ f.style.isEmpty then styleCalls row col f.style else []
    (if ¬ f.fg_color.isEmpty then
        (s_hexToRgb ULONG_MAX f.fg_color).map fun rgb =>
          [Call.setCellFontColor row col rgb.1 rgb.2.1 rgb.2.2]
      else .ok []).bind fun c3 =>
    (if ¬ f.bg_color.isEmpty then
        (s_hexToRgb ULONG_MAX f.bg_color).map fun rgb =>
          [Call.setCellBackgroundColor row col rgb.1 rgb.2.1 rgb.2.2]
      else .ok []).bind fun c4 =>
    .ok (.applied row col (c1 ++ c2 ++ c3 ++ c4))

/-- One iteration of the instruction loop on an instruction string. -/
def processInstruction (ULONG_MAX : Nat) (instruction : Str) : Except StdException Outcome :=
  (extractFields instruction).bind fun fields =>
  match fields with
  | none => .ok .MissingAddress
  | some f => applyFields ULONG_MAX f

/-- An element of the JSON array `cells`: a string, or a value of another JSON type. -/
inductive CellJson where
  | string (instruction : Str)
  | other
  deriving DecidableEq

/-- The loop `for (const auto &cell_instruction_json : cells_json)`: the outcomes of the
iterations on the string elements, in order; an exception leaving an iteration ends the loop. -/
def set_cells_by_array_handler.loop (ULONG_MAX : Nat) :
    List CellJson → Except StdException (List Outcome)
  | [] => .ok []
  | .other :: rest => set_cells_by_array_handler.loop ULONG_MAX rest
  | .string instruction :: rest =>
    (processInstruction ULONG_MAX instruction).bind fun o =>
    (set_cells_by_array_handler.loop ULONG_MAX rest).map fun os => o :: os

/-! ## The edit made by one instruction -/

/-- What one instruction writes to its cell: for each attribute the value written last, or
`none` when the instruction leaves the attribute untouched. -/
structure CellEdit where
  row : Nat
  col : Nat
  content : Option Str
  alignment : Option Str
  bold : Option Bool
  italic : Option Bool
  underline : Option Bool
  foreground : Option (Nat × Nat × Nat)
  background : Option (Nat × Nat × Nat)
  deriving DecidableEq

/-- The edit of `(row, col)` that writes nothing. -/
def CellEdit.untouched (row col : Nat) : CellEdit :=
  { row := row, col := col, content := none, alignment := none, bold := none, italic := none,
    underline := none, foreground := none, background := none }

/-- Effect of one backend call on the edit. -/
def CellEdit.record (e : CellEdit) : Call → CellEdit
  | .setCellValue _ content => { e with content := some content }
  | .setCellAlignment _ _ horizontal _ => { e with alignment := some horizontal }
  | .setCellFontBold _ _ bold => { e with bold := some bold }
  | .setCellFontItalic _ _ italic => { e with italic := some italic }
  | .setCellFontUnderline _ _ underline => { e with underline := some underline }
  | .setCellFontColor _ _ r g b => { e with foreground := some (r, g, b) }
  | .setCellBackgroundColor _ _ r g b => { e with background := some (r, g, b) }

/-- The edit made by a sequence of backend calls on the cell `(row, col)`. -/
def editOf (row col : Nat) (calls : List Call) : CellEdit :=
  calls.foldl CellEdit.record (CellEdit.untouched row col)

/-- Result of parsing one instruction: a rejection or the edit. -/
inductive ParseResult where
  | MissingAddress
  | InvalidAddress
  | edit (e : CellEdit)
  deriving DecidableEq

/-- The outcome of an iteration as a parse result. -/
def Outcome.toResult : Outcome → ParseResult
  | .MissingAddress => .MissingAddress
  | .InvalidAddress => .InvalidAddress
  | .applied row col calls => .edit (editOf row col calls)

/-- Parsing of one instruction as the loop body performs it. -/
def parse_cell_instruction (ULONG_MAX : Nat) (instruction : Str) :
    Except StdException ParseResult :=
  (processInstruction ULONG_MAX instruction).map Outcome.toResult


/-! ## Reference notions used by the statements -/

/-- Value of a positional numeral given by its digit values, most significant first:
the sum of `v_i * base ^ i`, `i` counting from the right. -/
def positional (base : Nat) : List Nat → Nat
  | [] => 0
  | v :: rest => v * base ^ rest.length + positional base rest

/-- The string `L` is a bijective base-26 numeral of `n`: a non-empty string of the letters
`A`..`Z` (worth 1..26) whose positional value is `n`. -/
def IsBijectiveNumeral (L : Str) (n : Nat) : Prop :=
  L ≠ [] ∧ (∀ c ∈ L, 65 ≤ c ∧ c ≤ 90) ∧ positional 26 (L.map (fun c => c - 64)) = n

/-- The string `D` is the decimal numeral of `n`: a non-empty string of the digits `0`..`9`
without a leading zero (except for `0` itself) whose positional value is `n`. -/
def IsDecimalNumeral (D : Str) (n : Nat) : Prop :=
  D ≠ [] ∧ (∀ c ∈ D, 48 ≤ c ∧ c ≤ 57) ∧ (D.head? = some 48 → D = [48]) ∧
    positional 10 (D.map (fun c => c - 48)) = n

/-- The letters' value: the Horner value of the upper-cased letters (`A` = 1 .. `Z` = 26). -/
def lettersValue (L : Str) : Nat := L.foldl (fun a c => a * 26 + (toupper c - 64)) 0

/-- The text after the first occurrence of `ch` (empty when `ch` does not occur). -/
def afterFirst (ch : Nat) (l : Str) : Str := (l.dropWhile (fun c => c != ch)).tail

/-- Bytes other than `%`. -/
def notStop1 (c : Nat) : Bool := c != 37

/-- Bytes other than `$` and `%`. -/
def notStop2 (c : Nat) : Bool := c != 36 && notStop1 c

/-- Bytes other than `#`, `$` and `%`. -/
def notStop3 (c : Nat) : Bool := c != 35 && notStop2 c

/-- The quoted content: the text between the first two single quotes, if there are two. -/
def contentField (s : Str) : Option Str :=
  if 39 ∈ afterFirst 39 s then some ((afterFirst 39 s).takeWhile (fun c => c != 39)) else none

/-- The address field: the text after the first `@` up to the nearest `#`, `$`, `%` or the
end of the string. -/
def addressField (s : Str) : Str := (afterFirst 64 s).takeWhile notStop3

/-- The field of the text `u` after the `@` that the anchor `ch` opens, `p` telling the bytes
that do not end it: empty without anchor; the text after the anchor up to the first byte
failing `p` when no such byte stands before the anchor; and otherwise everything after the
anchor. -/
def anchoredField (ch : Nat) (p : Nat → Bool) (u : Str) : Str :=
  if ch ∈ u then
    if (u.takeWhile (fun c => c != ch)).all p then (afterFirst ch u).takeWhile p
    else afterFirst ch u
  else []

/-- A hexadecimal digit, in either case. -/
def isHexDigit (c : Nat) : Bool :=
  (48 ≤ c && c ≤ 57) || (97 ≤ c && c ≤ 102) || (65 ≤ c && c ≤ 70)

/-- The value of a hexadecimal digit. -/
def hexDigitValue (c : Nat) : Nat :=
  if 48 ≤ c ∧ c ≤ 57 then c - 48 else if 97 ≤ c ∧ c ≤ 102 then c - 87 else c - 55

/-- The three bytes denoted by the three pairs of hexadecimal digits of a colour string. -/
def hexColour (hex : Str) : Nat × Nat × Nat :=
  (hexDigitValue (hex.getD 0 0) * 16 + hexDigitValue (hex.getD 1 0),
   hexDigitValue (hex.getD 2 0) * 16 + hexDigitValue (hex.getD 3 0),
   hexDigitValue (hex.getD 4 0) * 16 + hexDigitValue (hex.getD 5 0))

/-- Reference decoding of a pair of style tokens: the token `disable` switches the attribute
off, otherwise the token `enable` switches it on, otherwise the attribute is unset. -/
def refToggle (enable disable : Nat) (s : Str) : Option Bool :=
  if disable ∈ s then some false else if enable ∈ s then some true else none

/-- Reference decoding of the alignment: the glyph that occurs selects it, centre winning
over left and left over right; unset when no glyph occurs. -/
def refAlignment (s : Str) : Option Str :=
  if glyphCenter <:+: s then some (ascii "center")
  else if glyphLeft <:+: s then some (ascii "left")
  else if glyphRight <:+: s then some (ascii "right")
  else none

/-- Reference decoding of a style field on the cell `(row, col)`. -/
def refStyle (row col : Nat) (s : Str) : CellEdit :=
  { row := row, col := col, content := none, alignment := refAlignment s,
    bold := refToggle 66 98 s, italic := refToggle 73 105 s, underline := refToggle 85 117 s,
    foreground := none, background := none }

/-- The colour written for a colour field: the result of the colour decoder. -/
def decodedColour (ULONG_MAX : Nat) (hex : Str) : Nat × Nat × Nat :=
  match s_hexToRgb ULONG_MAX hex with
  | .ok rgb => rgb
  | .error _ => (0, 0, 0)

/-- Whether the letters and digits of an address string, other bytes dropped, are a
non-empty run of letters followed by a non-empty run of digits. -/
def lettersThenDigits (s : Str) : Bool :=
  let kept := s.filter (fun c => isalpha c || isdigit c)
  !(kept.takeWhile isalpha).isEmpty && !(kept.dropWhile isalpha).isEmpty &&
    (kept.dropWhile isalpha).all isdigit

/-- The edit of one iteration, when the iteration reaches the end of the body. -/
def Outcome.edit? : Outcome → Option CellEdit
  | .applied row col calls => some (editOf row col calls)
  | _ => none

/-- The edits made by the instruction loop on the array `cells`, in order. -/
def batchEdits (ULONG_MAX : Nat) (cells : List CellJson) : Except StdException (List CellEdit) :=
  (set_cells_by_array_handler.loop ULONG_MAX cells).map fun os => os.filterMap Outcome.edit?

/-- The edit of one instruction taken alone: `none` when the instruction is rejected. -/
def instructionEdit (ULONG_MAX : Nat) (instruction : Str) : Option CellEdit :=
  match parse_cell_instruction ULONG_MAX instruction with
  | .ok (.edit e) => some e
  | _ => none

/-! ## Lemmas on numerals -/

theorem positional_append_singleton (base : Nat) (vs : List Nat) (v : Nat) :
    positional base (vs ++ [v]) = positional base vs * base + v := by
  induction vs with
  | nil => simp [positional]
  | cons a vs ih =>
    show positional base (a :: (vs ++ [v])) = positional base (a :: vs) * base + v
    rw [positional, positional, ih, List.length_append, List.length_singleton, pow_succ]
    ring

theorem positional_reverse_cons (base : Nat) (vs : List Nat) (v : Nat) :
    positional base (v :: vs).reverse = v + base * positional base vs.reverse := by
  rw [List.reverse_cons, positional_append_singleton]
  ring

theorem foldl_horner_eq_positional (base : Nat) (f : Nat → Nat) (L : Str) (a : Nat) :
    L.foldl (fun a c => a * base + f c) a = a * base ^ L.length + positional base (L.map f) := by
  induction L generalizing a with
  | nil => simp [positional]
  | cons c L ih =>
    simp only [List.foldl_cons, ih, List.length_cons, List.map_cons, positional, List.length_map,
      pow_succ]
    ring

/-- Little-endian lists of digit values in `1..26` with the same value are equal. -/
theorem bijective_little_endian_inj (xs ys : List Nat)
    (hx : ∀ v ∈ xs, 1 ≤ v ∧ v ≤ 26) (hy : ∀ v ∈ ys, 1 ≤ v ∧ v ≤ 26)
    (h : positional 26 xs.reverse = positional 26 ys.reverse) : xs = ys := by
  induction xs generalizing ys with
  | nil =>
    cases ys with
    | nil => rfl
    | cons y ys =>
      rw [positional_reverse_cons] at h
      have := hy y (by simp)
      simp [positional] at h
      omega
  | cons x xs ih =>
    cases ys with
    | nil =>
      rw [positional_reverse_cons] at h
      have := hx x (by simp)
      simp [positional] at h
      omega
    | cons y ys =>
      rw [positional_reverse_cons, positional_reverse_cons] at h
      have h1 := hx x (by simp)
      have h2 := hy y (by simp)
      have hxy : x = y := by omega
      have hrest : positional 26 xs.reverse = positional 26 ys.reverse := by omega
      rw [hxy, ih ys (fun v hv => hx v (by simp [hv])) (fun v hv => hy v (by simp [hv])) hrest]

theorem bijective_numeral_unique (L L' : Str) (n : Nat)
    (h : IsBijectiveNumeral L n) (h' : IsBijectiveNumeral L' n) : L' = L := by
  obtain ⟨_, hl, hv⟩ := h
  obtain ⟨_, hl', hv'⟩ := h'
  have key : (L'.map (fun c => c - 64)).reverse = (L.map (fun c => c - 64)).reverse := by
    apply bijective_little_endian_inj
    · intro v hv
      simp only [List.mem_reverse, List.mem_map] at hv
      obtain ⟨c, hc, rfl⟩ := hv
      have := hl' c hc
      omega
    · intro v hv
      simp only [List.mem_reverse, List.mem_map] at hv
      obtain ⟨c, hc, rfl⟩ := hv
      have := hl c hc
      omega
    · simp only [List.reverse_reverse, hv, hv']
  have key2 : L'.map (fun c => c - 64) = L.map (fun c => c - 64) := by
    have := congrArg List.reverse key
    simpa using this
  apply List.ext_getElem
  · simpa using congrArg List.length key2
  · intro i h1 h2
    have e := List.getElem_of_eq key2 (by simpa using h1)
    simp only [List.getElem_map] at e
    have a1 := hl' L'[i] (List.getElem_mem _)
    have a2 := hl L[i] (List.getElem_mem _)
    omega


theorem map_sub_injective (k : Nat) (L L' : Str) (hL : ∀ c ∈ L, k ≤ c) (hL' : ∀ c ∈ L', k ≤ c)
    (h : L.map (fun c => c - k) = L'.map (fun c => c - k)) : L = L' := by
  apply List.ext_getElem
  · simpa using congrArg List.length h
  · intro i h1 h2
    have e := List.getElem_of_eq h (by simpa using h1)
    simp only [List.getElem_map] at e
    have a1 := hL L[i] (List.getElem_mem _)
    have a2 := hL' L'[i] (List.getElem_mem _)
    omega

theorem decimal_little_endian_zero (xs : List Nat) (h : positional 10 xs.reverse = 0) :
    ∀ v ∈ xs, v = 0 := by
  induction xs with
  | nil => simp
  | cons x xs ih =>
    rw [positional_reverse_cons] at h
    intro v hv
    rcases List.mem_cons.1 hv with rfl | hv
    · omega
    · exact ih (by omega) v hv

/-- Little-endian lists of decimal digit values without a most significant zero and with the
same value are equal. -/
theorem decimal_little_endian_inj (xs ys : List Nat)
    (hx : ∀ v ∈ xs, v ≤ 9) (hy : ∀ v ∈ ys, v ≤ 9)
    (nx : xs.getLast? = some 0 → xs = [0]) (ny : ys.getLast? = some 0 → ys = [0])
    (hxne : xs ≠ []) (hyne : ys ≠ [])
    (h : positional 10 xs.reverse = positional 10 ys.reverse) : xs = ys := by
  induction xs generalizing ys with
  | nil => exact absurd rfl hxne
  | cons x xs ih =>
    cases ys with
    | nil => exact absurd rfl hyne
    | cons y ys =>
      rw [positional_reverse_cons, positional_reverse_cons] at h
      have h1 := hx x (by simp)
      have h2 := hy y (by simp)
      have hxy : x = y := by omega
      have hrest : positional 10 xs.reverse = positional 10 ys.reverse := by omega
      subst hxy
      cases xs with
      | nil =>
        cases ys with
        | nil => rfl
        | cons y2 ys =>
          exfalso
          have hz := decimal_little_endian_zero (y2 :: ys) (by rw [← hrest]; simp [positional])
          have hlast : (x :: y2 :: ys).getLast? = some 0 := by
            rw [List.getLast?_cons_cons, List.getLast?_eq_getLast _ (by simp)]
            exact congrArg some (hz _ (List.getLast_mem _))
          have := ny hlast
          simp at this
      | cons x2 xs =>
        cases ys with
        | nil =>
          exfalso
          have hz := decimal_little_endian_zero (x2 :: xs) (by rw [hrest]; simp [positional])
          have hlast : (x :: x2 :: xs).getLast? = some 0 := by
            rw [List.getLast?_cons_cons, List.getLast?_eq_getLast _ (by simp)]
            exact congrArg some (hz _ (List.getLast_mem _))
          have := nx hlast
          simp at this
        | cons y2 ys =>
          have e := ih (y2 :: ys) (fun v hv => hx v (by simp [hv]))
            (fun v hv => hy v (by simp [hv]))
            (fun hl => by
              have := nx (by rw [List.getLast?_cons_cons]; exact hl)
              simp at this)
            (fun hl => by
              have := ny (by rw [List.getLast?_cons_cons]; exact hl)
              simp at this)
            (by simp) (by simp) hrest
          rw [e]

theorem decimal_numeral_unique (D D' : Str) (n : Nat)
    (h : IsDecimalNumeral D n) (h' : IsDecimalNumeral D' n) : D' = D := by
  obtain ⟨hne, hd, hlead, hv⟩ := h
  obtain ⟨hne', hd', hlead', hv'⟩ := h'
  have norm : ∀ E : Str, (∀ c ∈ E, 48 ≤ c ∧ c ≤ 57) → (E.head? = some 48 → E = [48]) →
      (E.map (fun c => c - 48)).reverse.getLast? = some 0 →
        (E.map (fun c => c - 48)).reverse = [0] := by
    intro E hE hEl hlast
    rw [List.getLast?_reverse] at hlast
    cases E with
    | nil => simp at hlast
    | cons e E =>
      simp only [List.map_cons, List.head?_cons, Option.some.injEq] at hlast
      have he := hE e (by simp)
      have : e = 48 := by omega
      have := hEl (by simp [this])
      simp [this]
  have key : (D'.map (fun c => c - 48)).reverse = (D.map (fun c => c - 48)).reverse := by
    apply decimal_little_endian_inj
    · intro v hv
      simp only [List.mem_reverse, List.mem_map] at hv
      obtain ⟨c, hc, rfl⟩ := hv
      have := hd' c hc
      omega
    · intro v hv
      simp only [List.mem_reverse, List.mem_map] at hv
      obtain ⟨c, hc, rfl⟩ := hv
      have := hd c hc
      omega
    · exact norm D' hd' hlead'
    · exact norm D hd hlead
    · simpa using hne'
    · simpa using hne
    · simp only [List.reverse_reverse, hv, hv']
  have key2 : D'.map (fun c => c - 48) = D.map (fun c => c - 48) := by
    have := congrArg List.reverse key
    simpa using this
  exact map_sub_injective 48 D' D (fun c hc => (hd' c hc).1) (fun c hc => (hd c hc).1) key2

/-! ## Lemmas on the codec -/

/-- With enough fuel the encoding loop ends with `col_num = 0`, having appended the letters of
`n`, least significant first. -/
theorem colNumberToLetters_loop_spec (fuel : Nat) :
    ∀ (n : Nat) (acc : Str), n ≤ fuel →
      ∃ ds : Str, s_colNumberToLetters.loop fuel n acc = (0, acc ++ ds) ∧
        (∀ c ∈ ds, 65 ≤ c ∧ c ≤ 90) ∧ (0 < n → ds ≠ []) ∧
        positional 26 (ds.map (fun c => c - 64)).reverse = n := by
  induction fuel with
  | zero =>
    intro n acc hn
    have : n = 0 := by omega
    subst this
    exact ⟨[], by simp [s_colNumberToLetters.loop], by simp, by simp, by simp [positional]⟩
  | succ fuel ih =>
    intro n acc hn
    rcases Nat.eq_zero_or_pos n with h0 | hpos
    · subst h0
      exact ⟨[], by simp [s_colNumberToLetters.loop], by simp, by simp, by simp [positional]⟩
    · by_cases hrem : n % 26 = 0
      · obtain ⟨ds, h1, h2, _, h4⟩ := ih (n / 26 - 1) (acc ++ [90]) (by omega)
        refine ⟨90 :: ds, ?_, ?_, by simp, ?_⟩
        · simp [s_colNumberToLetters.loop, hpos, hrem, h1]
        · intro c hc
          rcases List.mem_cons.1 hc with rfl | hc
          · omega
          · exact h2 c hc
        · rw [List.map_cons, positional_reverse_cons, h4]
          omega
      · obtain ⟨ds, h1, h2, _, h4⟩ := ih (n / 26) (acc ++ [n % 26 - 1 + 65]) (by omega)
        refine ⟨(n % 26 - 1 + 65) :: ds, ?_, ?_, by simp, ?_⟩
        · simp [s_colNumberToLetters.loop, hpos, hrem, h1]
        · intro c hc
          rcases List.mem_cons.1 hc with rfl | hc
          · omega
          · exact h2 c hc
        · rw [List.map_cons, positional_reverse_cons, h4]
          omega

/-- The letters of a positive column are its bijective base-26 numeral. -/
theorem colNumberToLetters_numeral (n : Nat) (hn : 1 ≤ n) :
    IsBijectiveNumeral (s_colNumberToLetters n) n := by
  obtain ⟨ds, h1, h2, h3, h4⟩ := colNumberToLetters_loop_spec n n [] le_rfl
  have hne : ds ≠ [] := h3 (by omega)
  have hval : s_colNumberToLetters n = ds.reverse := by
    cases ds with
    | nil => exact absurd rfl hne
    | cons d ds => simp [s_colNumberToLetters, h1]
  rw [hval]
  refine ⟨by simpa using hne, ?_, ?_⟩
  · intro c hc
    exact h2 c (List.mem_reverse.1 hc)
  · rw [List.map_reverse]
    exact h4

/-- With enough fuel the decimal loop pushes the decimal numeral of `n`. -/
theorem to_string_loop_spec (fuel : Nat) :
    ∀ (n : Nat) (acc : Str), n < fuel →
      ∃ ds : Str, to_string.loop fuel n acc = ds ++ acc ∧ IsDecimalNumeral ds n := by
  induction fuel with
  | zero => intro n acc hn; omega
  | succ fuel ih =>
    intro n acc hn
    by_cases hq : n / 10 = 0
    · refine ⟨[48 + n % 10], by simp [to_string.loop, hq], by simp, ?_, ?_, ?_⟩
      · intro c hc
        rcases List.mem_singleton.1 hc with rfl
        omega
      · intro h
        simp only [List.head?_cons, Option.some.injEq] at h
        simp [h]
      · simp only [List.map_cons, List.map_nil, positional, List.length_nil, pow_zero]
        omega
    · obtain ⟨ds, h1, hne, hdig, hlead, hval⟩ := ih (n / 10) ((48 + n % 10) :: acc) (by omega)
      refine ⟨ds ++ [48 + n % 10], by simp [to_string.loop, hq, h1], by simp, ?_, ?_, ?_⟩
      · intro c hc
        rcases List.mem_append.1 hc with hc | hc
        · exact hdig c hc
        · rcases List.mem_singleton.1 hc with rfl
          omega
      · intro h
        exfalso
        cases ds with
        | nil => exact hne rfl
        | cons d ds =>
          simp only [List.cons_append, List.head?_cons, Option.some.injEq] at h
          have := hlead (by simp [h])
          rw [this] at hval
          simp [positional] at hval
          omega
      · rw [List.map_append, List.map_cons, List.map_nil, positional_append_singleton, hval]
        omega

theorem to_string_numeral (n : Nat) : IsDecimalNumeral (to_string n) n := by
  obtain ⟨ds, h1, h2⟩ := to_string_loop_spec (n + 1) n [] (by omega)
  have : to_string n = ds := by simp [to_string, h1]
  rw [this]
  exact h2

theorem isalpha_of_upper (c : Nat) (h : 65 ≤ c ∧ c ≤ 90) : isalpha c = true := by
  simp [isalpha, h.1, h.2]

theorem isdigit_iff (c : Nat) : isdigit c = true ↔ 48 ≤ c ∧ c ≤ 57 := by
  simp [isdigit]

theorem isalpha_iff (c : Nat) :
    isalpha c = true ↔ (65 ≤ c ∧ c ≤ 90) ∨ (97 ≤ c ∧ c ≤ 122) := by
  simp [isalpha]

theorem not_isalpha_of_isdigit (c : Nat) (h : isdigit c = true) : isalpha c = false := by
  rw [isdigit_iff] at h
  rw [Bool.eq_false_iff, Ne, isalpha_iff]
  omega

/-- The scan of `s_cellAddressToRowCol` keeps the letters and the digits, in order. -/
theorem scan_eq_filter (address : Str) (st : Str × Str) :
    address.foldl s_cellAddressToRowCol.step st =
      (st.1 ++ address.filter isalpha, st.2 ++ address.filter isdigit) := by
  induction address generalizing st with
  | nil => simp
  | cons c rest ih =>
    rw [List.foldl_cons, ih]
    by_cases ha : isalpha c = true
    · have hd : isdigit c = false := by
        rw [Bool.eq_false_iff]
        intro hd
        rw [not_isalpha_of_isdigit c hd] at ha
        exact Bool.false_ne_true ha
      simp [s_cellAddressToRowCol.step, ha, hd]
    · by_cases hd : isdigit c = true
      · simp [s_cellAddressToRowCol.step, ha, hd]
      · simp [s_cellAddressToRowCol.step, ha, hd]

theorem digitValue_of_isdigit (c : Nat) (h : isdigit c = true) : digitValue c = c - 48 := by
  simp [digitValue, h]

theorem isDigitOf_ten_of_isdigit (c : Nat) (h : isdigit c = true) : isDigitOf 10 c = true := by
  have h2 := (isdigit_iff c).1 h
  simp only [isDigitOf, digitValue_of_isdigit c h, decide_eq_true_eq]
  omega

theorem readSign_of_isdigit (d : Nat) (rest : Str) (h : isdigit d = true) :
    readSign (d :: rest) = (false, d :: rest) := by
  have h2 := (isdigit_iff d).1 h
  unfold readSign
  split
  · rename_i heq
    simp only [List.cons.injEq] at heq
    omega
  · rename_i heq
    simp only [List.cons.injEq] at heq
    omega
  · rfl

/-- On a non-empty run of digits `std::stoul` gives its decimal value, or throws
`std::out_of_range` when the value exceeds `ULONG_MAX`. -/
theorem stoul_of_digits (U : Nat) (D : Str) (hne : D ≠ []) (hd : ∀ c ∈ D, isdigit c = true) :
    stoul U D = if digitsValue 10 D > U then .error .out_of_range
      else .ok (digitsValue 10 D) := by
  cases D with
  | nil => exact absurd rfl hne
  | cons d rest =>
    have hd0 : isdigit d = true := hd d (by simp)
    have hsp : isspace d = false := by
      have h2 := (isdigit_iff d).1 hd0
      simp only [isspace, Bool.or_eq_false_iff, decide_eq_false_iff_not, Bool.and_eq_false_iff]
      omega
    have htw : (d :: rest).takeWhile (isDigitOf 10) = d :: rest := by
      rw [List.takeWhile_eq_self_iff]
      intro c hc
      exact isDigitOf_ten_of_isdigit c (hd c hc)
    have hdw : (d :: rest).dropWhile isspace = d :: rest := by
      simp [List.dropWhile_cons, hsp]
    simp only [stoul, hdw, readSign_of_isdigit d rest hd0, htw]
    simp

theorem digitsValue_eq_positional (D : Str) (hd : ∀ c ∈ D, isdigit c = true) :
    digitsValue 10 D = positional 10 (D.map (fun c => c - 48)) := by
  have hmap : D.map digitValue = D.map (fun c => c - 48) :=
    List.map_congr_left (fun c hc => digitValue_of_isdigit c (hd c hc))
  rw [digitsValue, foldl_horner_eq_positional, hmap]
  simp

/-- The decoding loop computes the Horner value of the letters in `uint32_t` arithmetic. -/
theorem colLettersToNumber_loop_spec (L : Str) (hL : ∀ c ∈ L, isalpha c = true) (a : Nat) :
    s_colLettersToNumber.loop (a % 4294967296) L =
      (L.foldl (fun a c => a * 26 + (toupper c - 64)) a) % 4294967296 := by
  induction L generalizing a with
  | nil => simp [s_colLettersToNumber.loop]
  | cons c rest ih =>
    have hc : isalpha c = true := hL c (by simp)
    have hup : toupper c - 65 + 1 = toupper c - 64 := by
      have := (isalpha_iff c).1 hc
      unfold toupper
      split <;> omega
    have hmod : (a % 4294967296 * 26 + (toupper c - 64)) % 4294967296 =
        (a * 26 + (toupper c - 64)) % 4294967296 := by omega
    simp only [s_colLettersToNumber.loop, hc, Bool.not_true, Bool.false_eq_true, if_false, hup,
      hmod, List.foldl_cons]
    exact ih (fun c hc => hL c (by simp [hc])) _

theorem colLettersToNumber_of_alpha (L : Str) (hL : ∀ c ∈ L, isalpha c = true) :
    s_colLettersToNumber L = lettersValue L % 4294967296 := by
  have := colLettersToNumber_loop_spec L hL 0
  simpa [s_colLettersToNumber, lettersValue] using this

/-- Decoding in closed form: the letters and the digits are collected; if either run is empty
or the digits exceed `ULONG_MAX` the result is `(0, 0)`, otherwise row and column are the
values of the runs modulo `2 ^ 32`. -/
theorem cellAddressToRowCol_eq (U : Nat) (address : Str) :
    s_cellAddressToRowCol U address =
      if address.filter isalpha = [] ∨ address.filter isdigit = [] then (0, 0)
      else if digitsValue 10 (address.filter isdigit) > U then (0, 0)
      else (digitsValue 10 (address.filter isdigit) % 4294967296,
            lettersValue (address.filter isalpha) % 4294967296) := by
  unfold s_cellAddressToRowCol
  simp only [scan_eq_filter, List.nil_append, List.isEmpty_iff]
  by_cases h : address.filter isalpha = [] ∨ address.filter isdigit = []
  · rw [if_pos h, if_pos h]
  · rw [if_neg h, if_neg h]
    push_neg at h
    rw [stoul_of_digits U _ h.2 (fun c hc => (List.mem_filter.1 hc).2)]
    by_cases hv : digitsValue 10 (address.filter isdigit) > U
    · simp [hv]
    · simp only [hv, if_false]
      rw [colLettersToNumber_of_alpha _ (fun c hc => (List.mem_filter.1 hc).2)]

theorem lettersValue_of_numeral (L : Str) (n : Nat) (h : IsBijectiveNumeral L n) :
    lettersValue L = n := by
  obtain ⟨_, hl, hv⟩ := h
  have hmap : L.map (fun c => toupper c - 64) = L.map (fun c => c - 64) := by
    apply List.map_congr_left
    intro c hc
    have := hl c hc
    have hup : toupper c = c := by
      unfold toupper
      split <;> omega
    simp only [hup]
  rw [lettersValue, foldl_horner_eq_positional 26 (fun c => toupper c - 64), hmap, hv]
  simp

theorem digitsValue_of_numeral (D : Str) (n : Nat) (h : IsDecimalNumeral D n) :
    digitsValue 10 D = n := by
  obtain ⟨_, hd, _, hv⟩ := h
  rw [digitsValue_eq_positional D (fun c hc => (isdigit_iff c).2 (hd c hc)), hv]

/-- Letters followed by digits: the scan separates the two runs. -/
theorem filter_letters_digits (L D : Str) (hL : ∀ c ∈ L, 65 ≤ c ∧ c ≤ 90)
    (hD : ∀ c ∈ D, 48 ≤ c ∧ c ≤ 57) :
    (L ++ D).filter isalpha = L ∧ (L ++ D).filter isdigit = D := by
  have h1 : L.filter isalpha = L :=
    List.filter_eq_self.2 (fun c hc => isalpha_of_upper c (hL c hc))
  have h2 : D.filter isalpha = [] := by
    rw [List.filter_eq_nil_iff]
    intro c hc
    rw [not_isalpha_of_isdigit c ((isdigit_iff c).2 (hD c hc))]
    exact Bool.false_ne_true
  have h3 : L.filter isdigit = [] := by
    rw [List.filter_eq_nil_iff]
    intro c hc
    have := hL c hc
    rw [isdigit_iff]
    omega
  have h4 : D.filter isdigit = D :=
    List.filter_eq_self.2 (fun c hc => (isdigit_iff c).2 (hD c hc))
  simp [List.filter_append, h1, h2, h3, h4]

/-- The address string of a valid pair is its letters followed by its decimal row. -/
theorem getCellAddress_valid (inv : Str) (row col : Nat) (hrow : 1 ≤ row) (hcol : 1 ≤ col) :
    s_getCellAddress inv row col = s_colNumberToLetters col ++ to_string row := by
  have : ¬ (row = 0 ∨ col = 0) := by omega
  simp [s_getCellAddress, this]

/-- Every byte of the address string of a valid pair is an upper-case letter or a digit. -/
theorem getCellAddress_bytes (inv : Str) (row col : Nat) (hrow : 1 ≤ row) (hcol : 1 ≤ col) :
    ∀ c ∈ s_getCellAddress inv row col, (65 ≤ c ∧ c ≤ 90) ∨ (48 ≤ c ∧ c ≤ 57) := by
  rw [getCellAddress_valid inv row col hrow hcol]
  intro c hc
  rcases List.mem_append.1 hc with hc | hc
  · exact Or.inl ((colNumberToLetters_numeral col hcol).2.1 c hc)
  · exact Or.inr ((to_string_numeral row).2.1 c hc)

/-- Decoding the address string of a valid pair of `uint32_t` values gives the pair back. -/
theorem cellAddressToRowCol_getCellAddress (U : Nat) (inv : Str) (row col : Nat)
    (hU : 4294967295 ≤ U) (hrow : 1 ≤ row) (hrow32 : row < 4294967296)
    (hcol : 1 ≤ col) (hcol32 : col < 4294967296) :
    s_cellAddressToRowCol U (s_getCellAddress inv row col) = (row, col) := by
  have hL := colNumberToLetters_numeral col hcol
  have hD := to_string_numeral row
  obtain ⟨f1, f2⟩ := filter_letters_digits _ _ hL.2.1 hD.2.1
  rw [getCellAddress_valid inv row col hrow hcol, cellAddressToRowCol_eq, f1, f2,
    lettersValue_of_numeral _ _ hL, digitsValue_of_numeral _ _ hD]
  have hne : ¬ (s_colNumberToLetters col = [] ∨ to_string row = []) := by
    intro h
    rcases h with h | h
    · exact hL.1 h
    · exact hD.1 h
  rw [if_neg hne, if_neg (by omega), Nat.mod_eq_of_lt hrow32, Nat.mod_eq_of_lt hcol32]

/-! ## Lemmas on the anchor search -/

theorem findFrom_eq (ch : Nat) (l : Str) (i : Nat) :
    findFrom ch l i =
      if ch ∈ l then i + (l.takeWhile (fun c => c != ch)).length else npos := by
  induction l generalizing i with
  | nil => simp [findFrom]
  | cons c rest ih =>
    by_cases h : c = ch
    · subst h
      simp [findFrom, List.takeWhile_cons]
    · have h' : ¬ ch = c := fun e => h e.symm
      simp only [findFrom, h, if_false, ih, List.mem_cons, h', false_or, List.takeWhile_cons]
      split
      · simp [h]; omega
      · rfl

theorem find_eq (s : Str) (ch pos : Nat) :
    find s ch pos =
      if ch ∈ s.drop pos then pos + ((s.drop pos).takeWhile (fun c => c != ch)).length
      else npos := by
  rw [find, findFrom_eq]

theorem drop_length_takeWhile (p : Nat → Bool) (l : Str) :
    l.drop (l.takeWhile p).length = l.dropWhile p := by
  induction l with
  | nil => simp
  | cons c rest ih =>
    by_cases h : p c = true
    · simp [List.takeWhile_cons, List.dropWhile_cons, h, ih]
    · simp [List.takeWhile_cons, List.dropWhile_cons, h]

theorem take_length_takeWhile (p : Nat → Bool) (l : Str) :
    l.take (l.takeWhile p).length = l.takeWhile p := by
  induction l with
  | nil => simp
  | cons c rest ih =>
    by_cases h : p c = true
    · simp [List.takeWhile_cons, h, ih]
    · simp [List.takeWhile_cons, h]

theorem length_takeWhile_and (p q : Nat → Bool) (l : Str) :
    (l.takeWhile (fun c => p c && q c)).length =
      min (l.takeWhile p).length (l.takeWhile q).length := by
  induction l with
  | nil => simp
  | cons c rest ih =>
    by_cases hp : p c = true <;> by_cases hq : q c = true <;>
      simp only [List.takeWhile_cons, hp, hq, ih, Bool.and_self, Bool.and_true, Bool.and_false,
        Bool.true_and, if_true, if_false, List.length_cons, List.length_nil,
        Bool.false_eq_true] <;> omega

theorem dropWhile_ne_of_mem (ch : Nat) (l : Str) (h : ch ∈ l) :
    l.dropWhile (fun c => c != ch) = ch :: afterFirst ch l := by
  induction l with
  | nil => simp at h
  | cons c rest ih =>
    by_cases hc : c = ch
    · subst hc
      simp [afterFirst, List.dropWhile_cons]
    · have : ch ∈ rest := by
        rcases List.mem_cons.1 h with e | e
        · exact absurd e.symm hc
        · exact e
      simp [afterFirst, List.dropWhile_cons, hc] at ih ⊢
      exact ih this

theorem afterFirst_of_not_mem (ch : Nat) (l : Str) (h : ch ∉ l) : afterFirst ch l = [] := by
  have : l.dropWhile (fun c => c != ch) = [] := by
    rw [List.dropWhile_eq_nil_iff]
    intro x hx
    simp only [bne_iff_ne, ne_eq]
    intro e
    exact h (e ▸ hx)
  simp [afterFirst, this]

theorem takeWhile_append_of_all (p : Nat → Bool) (a b : Str) (h : ∀ x ∈ a, p x = true) :
    (a ++ b).takeWhile p = a ++ b.takeWhile p := by
  induction a with
  | nil => simp
  | cons x a ih =>
    have hx : p x = true := h x (by simp)
    simp [List.takeWhile_cons, hx, ih (fun y hy => h y (by simp [hy]))]

theorem takeWhile_append_of_not_all (p : Nat → Bool) (a b : Str) (h : ¬ ∀ x ∈ a, p x = true) :
    (a ++ b).takeWhile p = a.takeWhile p ∧ (a.takeWhile p).length < a.length := by
  induction a with
  | nil => simp at h
  | cons x a ih =>
    by_cases hx : p x = true
    · have h' : ¬ ∀ y ∈ a, p y = true := by
        intro hall
        apply h
        intro y hy
        rcases List.mem_cons.1 hy with rfl | hy
        · exact hx
        · exact hall y hy
      obtain ⟨e1, e2⟩ := ih h'
      simp [List.takeWhile_cons, hx, e1, e2]
    · simp [List.takeWhile_cons, hx]

/-- A string splits at the first occurrence of a byte it contains. -/
theorem split_at_first (ch : Nat) (l : Str) (h : ch ∈ l) :
    l = l.takeWhile (fun c => c != ch) ++ ch :: afterFirst ch l := by
  rw [← dropWhile_ne_of_mem ch l h, List.takeWhile_append_dropWhile]

theorem takeWhile_ne_all (ch : Nat) (l : Str) :
    ∀ x ∈ l.takeWhile (fun c => c != ch), x ≠ ch := by
  intro x hx
  have := List.mem_takeWhile_imp hx
  simpa using this

/-- The field that starts after an anchor at index `k`: with `e = k + 1 + n` the call
`substr (k + 1) (e - (k + 1))` takes `n` bytes, and with `e ≤ k` the subtraction wraps and
the call takes everything after the anchor. -/
theorem substr_after_anchor (s : Str) (k ch : Nat) (v : Str) (hk : s.drop k = ch :: v)
    (hlen : s.length < npos) (e : Nat) :
    (∀ n, e = k + 1 + n → n ≤ v.length →
        substr s (k + 1) (sizeSub e (k + 1)) = .ok (v.take n)) ∧
    (e ≤ k → substr s (k + 1) (sizeSub e (k + 1)) = .ok v) := by
  have hlen2 : (s.drop k).length = v.length + 1 := by rw [hk]; simp
  rw [List.length_drop] at hlen2
  have hv : s.drop (k + 1) = v := by
    have : s.drop (k + 1) = (s.drop k).drop 1 := by rw [List.drop_drop]
    rw [this, hk]; rfl
  have hpos : ¬ (k + 1 > s.length) := by omega
  unfold npos at hlen
  constructor
  · intro n he hn
    have : sizeSub e (k + 1) = n := by
      unfold sizeSub
      omega
    simp only [substr, hpos, if_false, this, hv]
  · intro he
    have : v.length ≤ sizeSub e (k + 1) := by
      unfold sizeSub
      omega
    simp only [substr, hpos, if_false, hv, List.take_of_length_le this]

/-- The anchor search: `find` from `pos` meets `ch` exactly when `ch` occurs at or after
`pos`, and then the string continues from the found index with `ch` and the text after it. -/
theorem find_spec (s : Str) (ch pos : Nat) (hlen : s.length < npos) :
    (ch ∉ s.drop pos → find s ch pos = npos) ∧
    (ch ∈ s.drop pos →
      find s ch pos = pos + ((s.drop pos).takeWhile (fun c => c != ch)).length ∧
      find s ch pos ≠ npos ∧
      s.drop (find s ch pos) = ch :: afterFirst ch (s.drop pos)) := by
  constructor
  · intro h
    rw [find_eq, if_neg h]
  · intro h
    have e : find s ch pos = pos + ((s.drop pos).takeWhile (fun c => c != ch)).length := by
      rw [find_eq, if_pos h]
    have hd : s.drop (find s ch pos) = ch :: afterFirst ch (s.drop pos) := by
      rw [e, ← List.drop_drop, drop_length_takeWhile, dropWhile_ne_of_mem ch _ h]
    refine ⟨e, ?_, hd⟩
    have hl : (s.drop (find s ch pos)).length = (afterFirst ch (s.drop pos)).length + 1 := by
      rw [hd]; simp
    rw [List.length_drop] at hl
    omega

/-! ## Theorems on the address codec -/

/-- C1: round trip. For every row and column that are at least 1 (unsigned 32-bit values),
decoding the address string produced by the encoder returns exactly the pair (row, column),
on every platform whose `unsigned long` has at least 32 bits. -/
theorem decode_encode_round_trip (ULONG_MAX : Nat) (invalid_address : Str) (row col : Nat)
    (hU : 4294967295 ≤ ULONG_MAX) (hrow : 1 ≤ row) (hrow32 : row < 4294967296)
    (hcol : 1 ≤ col) (hcol32 : col < 4294967296) :
    s_cellAddressToRowCol ULONG_MAX (s_getCellAddress invalid_address row col) = (row, col) :=
  cellAddressToRowCol_getCellAddress ULONG_MAX invalid_address row col hU hrow hrow32 hcol hcol32

/-- Witness of C1 at row 2, column 703 (the address `AAA2`) with a 64-bit `unsigned long`. -/
theorem decode_encode_round_trip_witness :
    s_getCellAddress [] 2 703 = ascii "AAA2" ∧
      s_cellAddressToRowCol 18446744073709551615 (s_getCellAddress [] 2 703) = (2, 703) :=
  ⟨by decide,
    decode_encode_round_trip 18446744073709551615 [] 2 703 (by decide) (by decide) (by decide)
      (by decide) (by decide)⟩

/-- C4: reference definition of the encoder. For every row and column that are at least 1 the
address string is the bijective base-26 numeral of the column (letters `A`..`Z` worth 1..26,
most significant first, the only such string with that positional value) immediately followed
by the decimal numeral of the row; and (1,1), (1,27), (1,28), (2,703) encode as `A1`, `AA1`,
`AB1`, `AAA2`. -/
theorem encode_reference_definition (invalid_address : Str) :
    (∀ row col : Nat, 1 ≤ row → 1 ≤ col →
      ∃ L D : Str, s_getCellAddress invalid_address row col = L ++ D ∧
        IsBijectiveNumeral L col ∧ (∀ L', IsBijectiveNumeral L' col → L' = L) ∧
        IsDecimalNumeral D row ∧ (∀ D', IsDecimalNumeral D' row → D' = D)) ∧
    s_getCellAddress invalid_address 1 1 = ascii "A1" ∧
    s_getCellAddress invalid_address 1 27 = ascii "AA1" ∧
    s_getCellAddress invalid_address 1 28 = ascii "AB1" ∧
    s_getCellAddress invalid_address 2 703 = ascii "AAA2" := by
  refine ⟨?_, ?_, ?_, ?_, ?_⟩
  rotate_left
  · rw [getCellAddress_valid _ _ _ (by decide) (by decide)]; decide
  · rw [getCellAddress_valid _ _ _ (by decide) (by decide)]; decide
  · rw [getCellAddress_valid _ _ _ (by decide) (by decide)]; decide
  · rw [getCellAddress_valid _ _ _ (by decide) (by decide)]; decide
  intro row col hrow hcol
  refine ⟨s_colNumberToLetters col, to_string row,
    getCellAddress_valid invalid_address row col hrow hcol,
    colNumberToLetters_numeral col hcol,
    fun L' h' => bijective_numeral_unique _ L' col (colNumberToLetters_numeral col hcol) h',
    to_string_numeral row,
    fun D' h' => decimal_numeral_unique _ D' row (to_string_numeral row) h'⟩

/-- Witness of C4 at row 3, column 2: the address is `B` followed by `3`. -/
theorem encode_reference_definition_witness :
    ∃ L D : Str, s_getCellAddress [] 3 2 = L ++ D ∧
      IsBijectiveNumeral L 2 ∧ (∀ L', IsBijectiveNumeral L' 2 → L' = L) ∧
      IsDecimalNumeral D 3 ∧ (∀ D', IsDecimalNumeral D' 3 → D' = D) :=
  (encode_reference_definition []).1 3 2 (by decide) (by decide)

/-! ## Lemmas on the field extraction -/

theorem afterFirst_cons_ne (ch c : Nat) (l : Str) (h : c ≠ ch) :
    afterFirst ch (c :: l) = afterFirst ch l := by
  simp [afterFirst, List.dropWhile_cons, h]

theorem length_takeWhile_le (p : Nat → Bool) (l : Str) : (l.takeWhile p).length ≤ l.length := by
  induction l with
  | nil => simp
  | cons c rest ih =>
    by_cases h : p c = true
    · simp [List.takeWhile_cons, h, ih]
    · simp [List.takeWhile_cons, h]

theorem length_takeWhile_add_le (p : Nat → Bool) (s : Str) (k : Nat) (hk : k ≤ s.length) :
    k + ((s.drop k).takeWhile p).length ≤ s.length := by
  have := length_takeWhile_le p (s.drop k)
  rw [List.length_drop] at this
  omega

/-- The smaller of a found position (or `npos`) and a bound inside the string. -/
theorem min_find (s : Str) (ch k X : Nat) (hlen : s.length < npos) (hk : k ≤ s.length)
    (hX : X ≤ s.length) :
    min (find s ch k) X = min (k + ((s.drop k).takeWhile (fun c => c != ch)).length) X := by
  rw [find_eq]
  split
  · rfl
  · rename_i h
    have hall : (s.drop k).takeWhile (fun c => c != ch) = s.drop k := by
      rw [List.takeWhile_eq_self_iff]
      intro x hx
      simp only [bne_iff_ne, ne_eq]
      intro e
      exact h (e ▸ hx)
    rw [hall, List.length_drop]
    omega

theorem min_find_takeWhile (s : Str) (ch k : Nat) (q : Nat → Bool) (hlen : s.length < npos)
    (hk : k ≤ s.length) :
    min (find s ch k) (k + ((s.drop k).takeWhile q).length) =
      k + ((s.drop k).takeWhile (fun c => c != ch && q c)).length := by
  rw [min_find s ch k _ hlen hk (length_takeWhile_add_le q s k hk), length_takeWhile_and]
  omega

theorem anchors_end1 (s : Str) (k : Nat) (hlen : s.length < npos) (hk : k ≤ s.length) :
    min (find s 37 k) s.length = k + ((s.drop k).takeWhile notStop1).length := by
  rw [min_find s 37 k _ hlen hk le_rfl]
  have := length_takeWhile_add_le notStop1 s k hk
  unfold notStop1 at this ⊢
  omega

theorem anchors_end2 (s : Str) (k : Nat) (hlen : s.length < npos) (hk : k ≤ s.length) :
    min (find s 36 k) (min (find s 37 k) s.length) =
      k + ((s.drop k).takeWhile notStop2).length := by
  rw [anchors_end1 s k hlen hk, min_find_takeWhile s 36 k notStop1 hlen hk]
  rfl

theorem anchors_end3 (s : Str) (k : Nat) (hlen : s.length < npos) (hk : k ≤ s.length) :
    min (find s 35 k) (min (find s 36 k) (min (find s 37 k) s.length)) =
      k + ((s.drop k).takeWhile notStop3).length := by
  rw [anchors_end2 s k hlen hk, min_find_takeWhile s 35 k notStop2 hlen hk]
  rfl

theorem le_length_of_drop_eq_cons (s : Str) (k c : Nat) (v : Str) (hk : s.drop k = c :: v) :
    k + 1 + v.length = s.length := by
  have : (s.drop k).length = v.length + 1 := by rw [hk]; simp
  rw [List.length_drop] at this
  omega

/-- The address field: the text after the `@` at index `k` up to the nearest stop. -/
theorem address_substr (s : Str) (k : Nat) (u : Str) (hk : s.drop k = 64 :: u)
    (hlen : s.length < npos) :
    substr s (k + 1)
        (sizeSub (min (find s 35 k) (min (find s 36 k) (min (find s 37 k) s.length))) (k + 1)) =
      .ok (u.takeWhile notStop3) := by
  have hkl := le_length_of_drop_eq_cons s k 64 u hk
  rw [anchors_end3 s k hlen (by omega), hk]
  have h64 : notStop3 64 = true := by decide
  rw [List.takeWhile_cons, if_pos h64, List.length_cons]
  have := (substr_after_anchor s k 64 u hk hlen
    (k + ((u.takeWhile notStop3).length + 1))).1 (u.takeWhile notStop3).length (by omega)
    (length_takeWhile_le _ _)
  rw [this, take_length_takeWhile]

/-- A field opened by an anchor `ch` searched from the `@` at index `k` and closed at
`e = k + length of the run of bytes satisfying p`. -/
theorem anchored_substr (s : Str) (k : Nat) (u : Str) (hk : s.drop k = 64 :: u)
    (hlen : s.length < npos) (ch : Nat) (hch : ch ≠ 64) (p : Nat → Bool) (hp64 : p 64 = true)
    (hpch : p ch = true) :
    (ch ∉ u → find s ch k = npos) ∧
    (ch ∈ u → find s ch k ≠ npos ∧
      s.drop (find s ch k) = ch :: afterFirst ch u ∧
      substr s (find s ch k + 1)
          (sizeSub (k + ((s.drop k).takeWhile p).length) (find s ch k + 1)) =
        .ok (anchoredField ch p u)) := by
  have hmem : ch ∈ s.drop k ↔ ch ∈ u := by
    rw [hk, List.mem_cons]
    constructor
    · rintro (h | h)
      · exact absurd h hch
      · exact h
    · exact Or.inr
  obtain ⟨f1, f2⟩ := find_spec s ch k hlen
  refine ⟨fun h => f1 (fun h' => h (hmem.1 h')), ?_⟩
  intro h
  obtain ⟨e1, e2, e3⟩ := f2 (hmem.2 h)
  have h64 : ((64 : Nat) != ch) = true := by
    simp only [bne_iff_ne, ne_eq]
    exact fun e => hch e.symm
  rw [hk, afterFirst_cons_ne ch 64 u (fun e => hch e.symm)] at e3
  rw [hk, List.takeWhile_cons, if_pos h64, List.length_cons] at e1
  refine ⟨e2, e3, ?_⟩
  rw [hk, List.takeWhile_cons, if_pos hp64, List.length_cons]
  obtain ⟨g1, g2⟩ := substr_after_anchor s (find s ch k) ch (afterFirst ch u) e3 hlen
    (k + ((u.takeWhile p).length + 1))
  have hsplit := split_at_first ch u h
  rw [anchoredField, if_pos h]
  by_cases hall : ∀ x ∈ u.takeWhile (fun c => c != ch), p x = true
  · have hall' : (u.takeWhile (fun c => c != ch)).all p = true := List.all_eq_true.2 hall
    rw [if_pos hall']
    have htw : u.takeWhile p =
        u.takeWhile (fun c => c != ch) ++ ch :: (afterFirst ch u).takeWhile p := by
      conv_lhs => rw [hsplit]
      rw [takeWhile_append_of_all p _ _ hall, List.takeWhile_cons, if_pos hpch]
    have hl : (u.takeWhile p).length =
        (u.takeWhile (fun c => c != ch)).length + 1 + ((afterFirst ch u).takeWhile p).length := by
      rw [htw]; simp; omega
    rw [g1 ((afterFirst ch u).takeWhile p).length (by omega) (length_takeWhile_le _ _),
      take_length_takeWhile]
  · have hall' : ¬ (u.takeWhile (fun c => c != ch)).all p = true :=
      fun h' => hall (List.all_eq_true.1 h')
    rw [if_neg hall']
    have htw := takeWhile_append_of_not_all p (u.takeWhile (fun c => c != ch))
      (ch :: afterFirst ch u) hall
    rw [← hsplit] at htw
    rw [g2 (by rw [htw.1]; omega)]

/-- The last field: `substr (pos + 1)` takes everything after the anchor. -/
theorem substr_rest (s : Str) (k ch : Nat) (v : Str) (hk : s.drop k = ch :: v)
    (hlen : s.length < npos) : substr s (k + 1) npos = .ok v := by
  have hkl := le_length_of_drop_eq_cons s k ch v hk
  have hv : s.drop (k + 1) = v := by
    have : s.drop (k + 1) = (s.drop k).drop 1 := by rw [List.drop_drop]
    rw [this, hk]; rfl
  have hpos : ¬ (k + 1 > s.length) := by omega
  simp only [substr, hpos, if_false, hv]
  rw [List.take_of_length_le (by omega)]

theorem content_substr (s : Str) (hlen : s.length < npos) :
    (if find s 39 0 ≠ npos ∧
          (if find s 39 0 ≠ npos then find s 39 (find s 39 0 + 1) else npos) ≠ npos then
        substr s (find s 39 0 + 1)
          (sizeSub (sizeSub (if find s 39 0 ≠ npos then find s 39 (find s 39 0 + 1) else npos)
            (find s 39 0)) 1)
      else Except.ok []) = .ok ((contentField s).getD []) ∧
    ((if find s 39 0 ≠ npos then find s 39 (find s 39 0 + 1) else npos) ≠ npos ↔
      (contentField s).isSome = true) := by
  obtain ⟨f1, f2⟩ := find_spec s 39 0 hlen
  rw [List.drop_zero] at f1 f2
  by_cases h : 39 ∈ s
  · obtain ⟨_, e2, e3⟩ := f2 h
    have hkl := le_length_of_drop_eq_cons s _ 39 _ e3
    have hv : s.drop (find s 39 0 + 1) = afterFirst 39 s := by
      have : s.drop (find s 39 0 + 1) = (s.drop (find s 39 0)).drop 1 := by rw [List.drop_drop]
      rw [this, e3]; rfl
    obtain ⟨g1, g2⟩ := find_spec s 39 (find s 39 0 + 1) hlen
    rw [hv] at g1 g2
    rw [if_pos e2]
    by_cases h2 : 39 ∈ afterFirst 39 s
    · obtain ⟨d1, d2, _⟩ := g2 h2
      have hn := length_takeWhile_le (fun c => c != 39) (afterFirst 39 s)
      have hss : sizeSub (sizeSub (find s 39 (find s 39 0 + 1)) (find s 39 0)) 1 =
          ((afterFirst 39 s).takeWhile (fun c => c != 39)).length := by
        rw [d1]
        unfold npos at hlen
        unfold sizeSub
        omega
      have hpos : ¬ (find s 39 0 + 1 > s.length) := by omega
      simp only [contentField, if_pos h2, Option.getD_some, Option.isSome_some, iff_true]
      refine ⟨?_, d2⟩
      rw [if_pos ⟨e2, d2⟩, hss]
      simp only [substr, hpos, if_false, hv, take_length_takeWhile]
    · have d := g1 h2
      simp only [contentField, if_neg h2, Option.getD_none, Option.isSome_none, d,
        ne_eq, not_true_eq_false, and_false, if_false, false_iff, Bool.false_eq_true,
        not_false_eq_true, and_self]
  · have e := f1 h
    have h2 : 39 ∉ afterFirst 39 s := by rw [afterFirst_of_not_mem 39 s h]; simp
    simp only [contentField, if_neg h2, Option.getD_none, Option.isSome_none, e,
      ne_eq, not_true_eq_false, false_and, if_false, false_iff, Bool.false_eq_true,
      not_false_eq_true, and_self]

theorem style_substr (s : Str) (k : Nat) (u : Str) (hk : s.drop k = 64 :: u)
    (hlen : s.length < npos) :
    (if find s 35 k ≠ npos then
        substr s (find s 35 k + 1)
          (sizeSub (min (find s 36 k) (min (find s 37 k) s.length)) (find s 35 k + 1))
      else Except.ok []) = .ok (anchoredField 35 notStop2 u) := by
  have hkl := le_length_of_drop_eq_cons s k 64 u hk
  obtain ⟨a1, a2⟩ := anchored_substr s k u hk hlen 35 (by decide) notStop2 (by decide)
    (by decide)
  rw [anchors_end2 s k hlen (by omega)]
  by_cases h : 35 ∈ u
  · obtain ⟨b1, _, b3⟩ := a2 h
    rw [if_pos b1, b3]
  · rw [a1 h, if_neg (by simp), anchoredField, if_neg h]

theorem fg_color_substr (s : Str) (k : Nat) (u : Str) (hk : s.drop k = 64 :: u)
    (hlen : s.length < npos) :
    (if find s 36 k ≠ npos then
        substr s (find s 36 k + 1) (sizeSub (min (find s 37 k) s.length) (find s 36 k + 1))
      else Except.ok []) = .ok (anchoredField 36 notStop1 u) := by
  have hkl := le_length_of_drop_eq_cons s k 64 u hk
  obtain ⟨a1, a2⟩ := anchored_substr s k u hk hlen 36 (by decide) notStop1 (by decide)
    (by decide)
  rw [anchors_end1 s k hlen (by omega)]
  by_cases h : 36 ∈ u
  · obtain ⟨b1, _, b3⟩ := a2 h
    rw [if_pos b1, b3]
  · rw [a1 h, if_neg (by simp), anchoredField, if_neg h]

theorem bg_color_substr (s : Str) (k : Nat) (u : Str) (hk : s.drop k = 64 :: u)
    (hlen : s.length < npos) :
    (if find s 37 k ≠ npos then substr s (find s 37 k + 1) npos else Except.ok []) =
      .ok (afterFirst 37 u) := by
  obtain ⟨a1, a2⟩ := anchored_substr s k u hk hlen 37 (by decide) (fun _ => true) rfl rfl
  by_cases h : 37 ∈ u
  · obtain ⟨b1, b2, _⟩ := a2 h
    rw [if_pos b1, substr_rest s _ 37 _ b2 hlen]
  · rw [a1 h, if_neg (by simp), afterFirst_of_not_mem 37 u h]

/-- The field extraction in closed form: without `@` the instruction is skipped; with `@`
every `substr` succeeds and the fields are the content between the first two quotes, the
address after the `@`, and the style, foreground and background fields of the text after
the `@`. -/
theorem extractFields_spec (s : Str) (hlen : s.length < npos) :
    (64 ∉ s → extractFields s = .ok none) ∧
    (64 ∈ s → ∃ ce : Nat, (ce ≠ npos ↔ (contentField s).isSome = true) ∧
      extractFields s = .ok (some
        { content_end := ce, content := (contentField s).getD [], address := addressField s,
          style := anchoredField 35 notStop2 (afterFirst 64 s),
          fg_color := anchoredField 36 notStop1 (afterFirst 64 s),
          bg_color := afterFirst 37 (afterFirst 64 s) })) := by
  obtain ⟨c1, c2⟩ := content_substr s hlen
  obtain ⟨f1, f2⟩ := find_spec s 64 0 hlen
  rw [List.drop_zero] at f1 f2
  constructor
  · intro h
    unfold extractFields
    simp only []
    rw [c1, f1 h]
    rfl
  · intro h
    obtain ⟨_, e2, e3⟩ := f2 h
    refine ⟨_, c2, ?_⟩
    unfold extractFields
    simp only []
    rw [c1, address_substr s _ _ e3 hlen, style_substr s _ _ e3 hlen,
      fg_color_substr s _ _ e3 hlen, bg_color_substr s _ _ e3 hlen]
    simp only [Except.bind, if_neg e2]
    rfl

/-! ## Lemmas on the colour decoder -/

theorem digitValue_of_isHexDigit (c : Nat) (h : isHexDigit c = true) :
    digitValue c = hexDigitValue c ∧ hexDigitValue c < 16 := by
  simp only [isHexDigit, Bool.or_eq_true, Bool.and_eq_true, decide_eq_true_eq] at h
  unfold digitValue hexDigitValue isdigit
  simp only [Bool.and_eq_true, decide_eq_true_eq]
  split_ifs <;> omega

theorem digitsValue_takeWhile_le (l : Str) (hl : l.length ≤ 2) :
    digitsValue 16 (l.takeWhile (isDigitOf 16)) ≤ 255 := by
  match l, hl with
  | [], _ => simp [digitsValue]
  | [a], _ =>
    by_cases ha : isDigitOf 16 a = true
    · have := ha
      simp only [isDigitOf, decide_eq_true_eq] at this
      simp only [List.takeWhile_cons, ha, if_true, List.takeWhile_nil, digitsValue,
        List.foldl_cons, List.foldl_nil]
      omega
    · simp [List.takeWhile_cons, ha, digitsValue]
  | [a, b], _ =>
    by_cases ha : isDigitOf 16 a = true
    · have ha' := ha
      simp only [isDigitOf, decide_eq_true_eq] at ha'
      by_cases hb : isDigitOf 16 b = true
      · have hb' := hb
        simp only [isDigitOf, decide_eq_true_eq] at hb'
        simp only [List.takeWhile_cons, ha, hb, if_true, List.takeWhile_nil, digitsValue,
          List.foldl_cons, List.foldl_nil]
        omega
      · simp only [List.takeWhile_cons, ha, hb, if_true, if_false, digitsValue,
          List.foldl_cons, List.foldl_nil, Bool.false_eq_true]
        omega
    · simp [List.takeWhile_cons, ha, digitsValue]
  | _ :: _ :: _ :: _, h => simp at h

theorem length_readSign_le (l : Str) : (readSign l).2.length ≤ l.length := by
  unfold readSign
  split <;> simp

theorem length_dropWhile_le (p : Nat → Bool) (l : Str) : (l.dropWhile p).length ≤ l.length := by
  induction l with
  | nil => simp
  | cons c rest ih =>
    by_cases h : p c = true
    · simp only [List.dropWhile_cons, h, if_true, List.length_cons]; omega
    · simp [List.dropWhile_cons, h]

theorem skipHexPrefix_short (l : Str) (hl : l.length ≤ 2) : skipHexPrefix l = l := by
  match l, hl with
  | [], _ => rfl
  | [_], _ => simp [skipHexPrefix]
  | [_, _], _ => simp [skipHexPrefix]
  | _ :: _ :: _ :: _, h => simp at h

/-- On a string of at most two bytes `std::stol` in base 16 cannot leave the range of `long`. -/
theorem stol16_short (U : Nat) (hU : 4294967295 ≤ U) (l : Str) (hl : l.length ≤ 2) :
    stol16 U l ≠ .error .out_of_range := by
  have h1 := length_dropWhile_le isspace l
  have h2 := length_readSign_le (l.dropWhile isspace)
  have h3 := skipHexPrefix_short (readSign (l.dropWhile isspace)).2 (by omega)
  have h4 := digitsValue_takeWhile_le (readSign (l.dropWhile isspace)).2 (by omega)
  unfold stol16
  simp only [h3]
  split_ifs <;> first | (exfalso; omega) | simp

theorem stol16_short_cases (U : Nat) (hU : 4294967295 ≤ U) (l : Str) (hl : l.length ≤ 2) :
    stol16 U l = .error .invalid_argument ∨ ∃ r, stol16 U l = .ok r := by
  have h := stol16_short U hU l hl
  cases hr : stol16 U l with
  | error e =>
    cases e with
    | invalid_argument => exact Or.inl rfl
    | out_of_range => exact absurd hr h
  | ok r => exact Or.inr ⟨r, rfl⟩

theorem length_six (l : Str) (h : l.length = 6) : ∃ a b c d e f, l = [a, b, c, d, e, f] := by
  match l, h with
  | [a, b, c, d, e, f], _ => exact ⟨a, b, c, d, e, f, rfl⟩

/-- The colour decoder never throws: every exception of `std::stol` on a two-byte string is
`std::invalid_argument`, which is caught. -/
theorem hexToRgb_total (U : Nat) (hU : 4294967295 ≤ U) (hex : Str) :
    ∃ rgb, s_hexToRgb U hex = .ok rgb := by
  by_cases hl : hex.length = 6
  · obtain ⟨a, b, c, d, e, f, rfl⟩ := length_six hex hl
    have e0 : substr [a, b, c, d, e, f] 0 2 = .ok [a, b] := by simp [substr]
    have e1 : substr [a, b, c, d, e, f] 2 2 = .ok [c, d] := by simp [substr]
    have e2 : substr [a, b, c, d, e, f] 4 2 = .ok [e, f] := by simp [substr]
    unfold s_hexToRgb
    simp only [e0, e1, e2, Except.bind]
    rcases stol16_short_cases U hU [a, b] (by simp) with h0 | ⟨r, h0⟩
    · exact ⟨(0, 0, 0), by simp [h0]⟩
    · rcases stol16_short_cases U hU [c, d] (by simp) with h1 | ⟨g, h1⟩
      · exact ⟨(0, 0, 0), by simp [h0, h1]⟩
      · rcases stol16_short_cases U hU [e, f] (by simp) with h2 | ⟨b', h2⟩
        · exact ⟨(0, 0, 0), by simp [h0, h1, h2]⟩
        · exact ⟨_, by simp only [h0, h1, h2, List.length_cons, List.length_nil]; rfl⟩
  · exact ⟨(0, 0, 0), by simp [s_hexToRgb, hl]⟩

theorem hexToRgb_wrong_length (U : Nat) (hex : Str) (hl : hex.length ≠ 6) :
    s_hexToRgb U hex = .ok (0, 0, 0) := by
  simp [s_hexToRgb, hl]

/-- The value `std::stol` reads from two hexadecimal digits. -/
theorem stol16_hex_pair (U : Nat) (hU : 4294967295 ≤ U) (a b : Nat)
    (ha : isHexDigit a = true) (hb : isHexDigit b = true) :
    stol16 U [a, b] = .ok ((hexDigitValue a * 16 + hexDigitValue b : Nat) : Int) := by
  obtain ⟨va, la⟩ := digitValue_of_isHexDigit a ha
  obtain ⟨vb, lb⟩ := digitValue_of_isHexDigit b hb
  have ha' := ha
  simp only [isHexDigit, Bool.or_eq_true, Bool.and_eq_true, decide_eq_true_eq] at ha'
  have hsp : isspace a = false := by
    simp only [isspace, Bool.or_eq_false_iff, decide_eq_false_iff_not, Bool.and_eq_false_iff]
    omega
  have hdw : [a, b].dropWhile isspace = [a, b] := by simp [List.dropWhile_cons, hsp]
  have hrs : readSign [a, b] = (false, [a, b]) := by
    unfold readSign
    split
    · rename_i heq
      simp only [List.cons.injEq] at heq
      omega
    · rename_i heq
      simp only [List.cons.injEq] at heq
      omega
    · rfl
  have da : isDigitOf 16 a = true := by simp only [isDigitOf, decide_eq_true_eq]; omega
  have db : isDigitOf 16 b = true := by simp only [isDigitOf, decide_eq_true_eq]; omega
  have htw : [a, b].takeWhile (isDigitOf 16) = [a, b] := by simp [List.takeWhile_cons, da, db]
  have hval : digitsValue 16 [a, b] = hexDigitValue a * 16 + hexDigitValue b := by
    simp [digitsValue, va, vb]
  have hle : ¬ (hexDigitValue a * 16 + hexDigitValue b > U / 2) := by omega
  simp only [stol16, hdw, hrs, skipHexPrefix_short [a, b] (by simp), htw, hval]
  simp [hle]

/-- On six hexadecimal digits the colour decoder gives the bytes of the three pairs. -/
theorem hexToRgb_hex (U : Nat) (hU : 4294967295 ≤ U) (hex : Str) (hl : hex.length = 6)
    (hh : ∀ c ∈ hex, isHexDigit c = true) : s_hexToRgb U hex = .ok (hexColour hex) := by
  obtain ⟨a, b, c, d, e, f, rfl⟩ := length_six hex hl
  have e0 : substr [a, b, c, d, e, f] 0 2 = .ok [a, b] := by simp [substr]
  have e1 : substr [a, b, c, d, e, f] 2 2 = .ok [c, d] := by simp [substr]
  have e2 : substr [a, b, c, d, e, f] 4 2 = .ok [e, f] := by simp [substr]
  have ha := digitValue_of_isHexDigit a (hh a (by simp))
  have hb := digitValue_of_isHexDigit b (hh b (by simp))
  have hc := digitValue_of_isHexDigit c (hh c (by simp))
  have hd := digitValue_of_isHexDigit d (hh d (by simp))
  have he := digitValue_of_isHexDigit e (hh e (by simp))
  have hf := digitValue_of_isHexDigit f (hh f (by simp))
  unfold s_hexToRgb
  simp only [e0, e1, e2, Except.bind,
    stol16_hex_pair U hU a b (hh a (by simp)) (hh b (by simp)),
    stol16_hex_pair U hU c d (hh c (by simp)) (hh d (by simp)),
    stol16_hex_pair U hU e f (hh e (by simp)) (hh f (by simp))]
  simp only [List.length_cons, List.length_nil, ne_eq, not_true_eq_false, if_false, hexColour,
    List.getD_cons_zero, List.getD_cons_succ]
  have m1 : (((hexDigitValue a * 16 + hexDigitValue b : Nat) : Int) % 256).toNat =
      hexDigitValue a * 16 + hexDigitValue b := by omega
  have m2 : (((hexDigitValue c * 16 + hexDigitValue d : Nat) : Int) % 256).toNat =
      hexDigitValue c * 16 + hexDigitValue d := by omega
  have m3 : (((hexDigitValue e * 16 + hexDigitValue f : Nat) : Int) % 256).toNat =
      hexDigitValue e * 16 + hexDigitValue f := by omega
  simp only [m1, m2, m3]

/-! ## Lemmas on the style tokens and on the edit -/

theorem find_ne_npos_iff (s : Str) (ch : Nat) (hlen : s.length < npos) :
    find s ch 0 ≠ npos ↔ ch ∈ s := by
  obtain ⟨f1, f2⟩ := find_spec s ch 0 hlen
  rw [List.drop_zero] at f1 f2
  constructor
  · intro h
    by_contra hn
    exact h (f1 hn)
  · intro h
    exact (f2 h).2.1

theorem findStrFrom_spec (pat : Str) (l : Str) (i : Nat) :
    (¬ pat <:+: l → findStrFrom pat l i = npos) ∧
    (pat <:+: l → i ≤ findStrFrom pat l i ∧ findStrFrom pat l i ≤ i + l.length) := by
  induction l generalizing i with
  | nil =>
    constructor
    · intro h
      have : pat ≠ [] := fun e => h (by rw [e])
      simp [findStrFrom, this]
    · intro h
      have : pat = [] := List.eq_nil_of_infix_nil h
      simp [findStrFrom, this]
  | cons c rest ih =>
    obtain ⟨i1, i2⟩ := ih (i + 1)
    by_cases hp : pat.isPrefixOf (c :: rest) = true
    · constructor
      · intro h
        exact absurd (List.isPrefixOf_iff_prefix.1 hp).isInfix h
      · intro _
        simp [findStrFrom, hp]
    · have hnp : ¬ pat <+: c :: rest := fun h => hp (List.isPrefixOf_iff_prefix.2 h)
      have hiff : pat <:+: c :: rest ↔ pat <:+: rest := by
        rw [List.infix_cons_iff]
        constructor
        · rintro (h | h)
          · exact absurd h hnp
          · exact h
        · exact Or.inr
      simp only [findStrFrom, hp, if_false, Bool.false_eq_true]
      constructor
      · intro h
        exact i1 (fun h' => h (hiff.2 h'))
      · intro h
        have := i2 (hiff.1 h)
        simp only [List.length_cons]
        omega

theorem findStr_ne_npos_iff (s pat : Str) (hlen : s.length < npos) :
    findStr s pat ≠ npos ↔ pat <:+: s := by
  obtain ⟨f1, f2⟩ := findStrFrom_spec pat s 0
  constructor
  · intro h
    by_contra hn
    exact h (f1 hn)
  · intro h
    have := (f2 h).2
    unfold findStr
    omega

theorem foldl_record_ite (e : CellEdit) (c : Prop) [Decidable c] (x : Call) :
    List.foldl CellEdit.record e (if c then [x] else []) = if c then e.record x else e := by
  split <;> rfl

theorem alignment_triple (e : CellEdit) (row col : Nat) (c1 c2 c3 : Prop) [Decidable c1]
    [Decidable c2] [Decidable c3] :
    List.foldl CellEdit.record (List.foldl CellEdit.record (List.foldl CellEdit.record e
        (if c1 then [Call.setCellAlignment row col (ascii "right") []] else []))
        (if c2 then [Call.setCellAlignment row col (ascii "left") []] else []))
        (if c3 then [Call.setCellAlignment row col (ascii "center") []] else []) =
      { e with alignment :=
          if c3 then some (ascii "center") else if c2 then some (ascii "left")
          else if c1 then some (ascii "right") else e.alignment } := by
  by_cases h1 : c1 <;> by_cases h2 : c2 <;> by_cases h3 : c3 <;>
    simp [h1, h2, h3, CellEdit.record]

theorem bold_pair (e : CellEdit) (row col : Nat) (c1 c2 : Prop) [Decidable c1] [Decidable c2] :
    List.foldl CellEdit.record (List.foldl CellEdit.record e
        (if c1 then [Call.setCellFontBold row col true] else []))
        (if c2 then [Call.setCellFontBold row col false] else []) =
      { e with bold := if c2 then some false else if c1 then some true else e.bold } := by
  by_cases h1 : c1 <;> by_cases h2 : c2 <;> simp [h1, h2, CellEdit.record]

theorem italic_pair (e : CellEdit) (row col : Nat) (c1 c2 : Prop) [Decidable c1]
    [Decidable c2] :
    List.foldl CellEdit.record (List.foldl CellEdit.record e
        (if c1 then [Call.setCellFontItalic row col true] else []))
        (if c2 then [Call.setCellFontItalic row col false] else []) =
      { e with italic := if c2 then some false else if c1 then some true else e.italic } := by
  by_cases h1 : c1 <;> by_cases h2 : c2 <;> simp [h1, h2, CellEdit.record]

theorem underline_pair (e : CellEdit) (row col : Nat) (c1 c2 : Prop) [Decidable c1]
    [Decidable c2] :
    List.foldl CellEdit.record (List.foldl CellEdit.record e
        (if c1 then [Call.setCellFontUnderline row col true] else []))
        (if c2 then [Call.setCellFontUnderline row col false] else []) =
      { e with underline :=
          if c2 then some false else if c1 then some true else e.underline } := by
  by_cases h1 : c1 <;> by_cases h2 : c2 <;> simp [h1, h2, CellEdit.record]

theorem refToggle_or (a b : Nat) (s : Str) (d : Option Bool) :
    (if b ∈ s then some false else if a ∈ s then some true else d) = (refToggle a b s).or d := by
  unfold refToggle
  split_ifs <;> rfl

theorem refAlignment_or (s : Str) (d : Option Str) :
    (if glyphCenter <:+: s then some (ascii "center") else if glyphLeft <:+: s then
        some (ascii "left") else if glyphRight <:+: s then some (ascii "right") else d) =
      (refAlignment s).or d := by
  unfold refAlignment
  split_ifs <;> rfl

/-- The edit made by the style block, from any earlier state of the edit. -/
theorem styleCalls_edit (e : CellEdit) (row col : Nat) (s : Str) (hlen : s.length < npos) :
    (styleCalls row col s).foldl CellEdit.record e =
      { e with
        alignment := (refAlignment s).or e.alignment
        bold := (refToggle 66 98 s).or e.bold
        italic := (refToggle 73 105 s).or e.italic
        underline := (refToggle 85 117 s).or e.underline } := by
  unfold styleCalls
  simp only [List.foldl_append]
  rw [alignment_triple, bold_pair, italic_pair, underline_pair]
  simp only [find_ne_npos_iff s _ hlen, findStr_ne_npos_iff s _ hlen, refToggle_or,
    refAlignment_or]

theorem refStyle_nil :
    refAlignment [] = none ∧ refToggle 66 98 [] = none ∧ refToggle 73 105 [] = none ∧
      refToggle 85 117 [] = none := by
  refine ⟨by decide, by decide, by decide, by decide⟩

/-- The edit summarising the calls of one accepted iteration. -/
theorem editOf_calls (row col ce : Nat) (addr content style fg bg : Str)
    (cf cb : Nat × Nat × Nat) (hst : style.length < npos) :
    editOf row col
      ((if ce ≠ npos then [Call.setCellValue addr content] else []) ++
        (if ¬ style.isEmpty then styleCalls row col style else []) ++
        (if ¬ fg.isEmpty then [Call.setCellFontColor row col cf.1 cf.2.1 cf.2.2] else []) ++
        (if ¬ bg.isEmpty then [Call.setCellBackgroundColor row col cb.1 cb.2.1 cb.2.2]
          else [])) =
      { row := row, col := col,
        content := if ce ≠ npos then some content else none,
        alignment := refAlignment style,
        bold := refToggle 66 98 style,
        italic := refToggle 73 105 style,
        underline := refToggle 85 117 style,
        foreground := if fg = [] then none else some cf,
        background := if bg = [] then none else some cb } := by
  have hstyle : ∀ e : CellEdit,
      List.foldl CellEdit.record e (if ¬ style.isEmpty then styleCalls row col style else []) =
        { e with
          alignment := (refAlignment style).or e.alignment
          bold := (refToggle 66 98 style).or e.bold
          italic := (refToggle 73 105 style).or e.italic
          underline := (refToggle 85 117 style).or e.underline } := by
    intro e
    by_cases h : style = []
    · subst h
      obtain ⟨a, b, c, d⟩ := refStyle_nil
      simp [a, b, c, d]
    · have : ¬ style.isEmpty = true := by simpa using h
      rw [if_pos this, styleCalls_edit e row col style hst]
  unfold editOf
  simp only [List.foldl_append, hstyle, foldl_record_ite]
  by_cases h1 : ce ≠ npos <;> by_cases h2 : fg = [] <;> by_cases h3 : bg = [] <;>
    simp [h1, h2, h3, CellEdit.record, CellEdit.untouched]

/-- The application step in closed form: it never throws, rejects an address that decodes to
row 0 or column 0, and otherwise makes the calls of the four steps in order. -/
theorem applyFields_spec (U : Nat) (hU : 4294967295 ≤ U) (f : Fields) :
    applyFields U f = .ok
      (if (s_cellAddressToRowCol U f.address).1 = 0 ∨ (s_cellAddressToRowCol U f.address).2 = 0
        then .InvalidAddress
        else .applied (s_cellAddressToRowCol U f.address).1 (s_cellAddressToRowCol U f.address).2
          ((if f.content_end ≠ npos then [Call.setCellValue f.address f.content] else []) ++
            (if ¬ f.style.isEmpty then
              styleCalls (s_cellAddressToRowCol U f.address).1
                (s_cellAddressToRowCol U f.address).2 f.style else []) ++
            (if ¬ f.fg_color.isEmpty then
              [Call.setCellFontColor (s_cellAddressToRowCol U f.address).1
                (s_cellAddressToRowCol U f.address).2 (decodedColour U f.fg_color).1
                (decodedColour U f.fg_color).2.1 (decodedColour U f.fg_color).2.2] else []) ++
            (if ¬ f.bg_color.isEmpty then
              [Call.setCellBackgroundColor (s_cellAddressToRowCol U f.address).1
                (s_cellAddressToRowCol U f.address).2 (decodedColour U f.bg_color).1
                (decodedColour U f.bg_color).2.1 (decodedColour U f.bg_color).2.2] else []))) := by
  obtain ⟨cf, hcf⟩ := hexToRgb_total U hU f.fg_color
  obtain ⟨cb, hcb⟩ := hexToRgb_total U hU f.bg_color
  have dcf : decodedColour U f.fg_color = cf := by simp [decodedColour, hcf]
  have dcb : decodedColour U f.bg_color = cb := by simp [decodedColour, hcb]
  unfold applyFields
  simp only [hcf, hcb, dcf, dcb]
  by_cases hinv : (s_cellAddressToRowCol U f.address).1 = 0 ∨
      (s_cellAddressToRowCol U f.address).2 = 0
  · rw [if_pos hinv, if_pos hinv]
  · rw [if_neg hinv, if_neg hinv]
    by_cases h2 : f.fg_color.isEmpty = true <;> by_cases h3 : f.bg_color.isEmpty = true <;>
      simp [h2, h3, Except.bind, Except.map]

theorem length_afterFirst_le (ch : Nat) (l : Str) : (afterFirst ch l).length ≤ l.length := by
  have := length_dropWhile_le (fun c => c != ch) l
  unfold afterFirst
  rw [List.length_tail]
  omega

theorem length_anchoredField_le (ch : Nat) (p : Nat → Bool) (u : Str) :
    (anchoredField ch p u).length ≤ u.length := by
  have h1 := length_afterFirst_le ch u
  have h2 := length_takeWhile_le p (afterFirst ch u)
  unfold anchoredField
  split_ifs
  · omega
  · omega
  · simp

/-- Parsing in closed form. Without `@` the instruction is rejected as `MissingAddress`; with
`@` parsing never throws, rejects the instruction as `InvalidAddress` when the address field
decodes to row 0 or column 0, and otherwise gives the edit made of the content field, the
decoded style field and the decoded colour fields. -/
theorem parse_spec (U : Nat) (hU : 4294967295 ≤ U) (s : Str) (hlen : s.length < npos) :
    (64 ∉ s → parse_cell_instruction U s = .ok .MissingAddress) ∧
    (64 ∈ s → parse_cell_instruction U s = .ok
      (if (s_cellAddressToRowCol U (addressField s)).1 = 0 ∨
          (s_cellAddressToRowCol U (addressField s)).2 = 0 then .InvalidAddress
        else .edit
          { row := (s_cellAddressToRowCol U (addressField s)).1,
            col := (s_cellAddressToRowCol U (addressField s)).2,
            content := contentField s,
            alignment := refAlignment (anchoredField 35 notStop2 (afterFirst 64 s)),
            bold := refToggle 66 98 (anchoredField 35 notStop2 (afterFirst 64 s)),
            italic := refToggle 73 105 (anchoredField 35 notStop2 (afterFirst 64 s)),
            underline := refToggle 85 117 (anchoredField 35 notStop2 (afterFirst 64 s)),
            foreground :=
              if anchoredField 36 notStop1 (afterFirst 64 s) = [] then none
              else some (decodedColour U (anchoredField 36 notStop1 (afterFirst 64 s))),
            background :=
              if afterFirst 37 (afterFirst 64 s) = [] then none
              else some (decodedColour U (afterFirst 37 (afterFirst 64 s))) })) := by
  obtain ⟨e1, e2⟩ := extractFields_spec s hlen
  constructor
  · intro h
    simp [parse_cell_instruction, processInstruction, e1 h, Except.bind, Except.map,
      Outcome.toResult]
  · intro h
    obtain ⟨ce, hce, hf⟩ := e2 h
    have hstyle : (anchoredField 35 notStop2 (afterFirst 64 s)).length < npos := by
      have h1 := length_anchoredField_le 35 notStop2 (afterFirst 64 s)
      have h2 := length_afterFirst_le 64 s
      omega
    simp only [parse_cell_instruction, processInstruction, hf, Except.bind,
      applyFields_spec U hU, Except.map]
    by_cases hinv : (s_cellAddressToRowCol U (addressField s)).1 = 0 ∨
        (s_cellAddressToRowCol U (addressField s)).2 = 0
    · rw [if_pos hinv, if_pos hinv]
      rfl
    · rw [if_neg hinv, if_neg hinv]
      simp only [Outcome.toResult]
      rw [editOf_calls _ _ _ _ _ _ _ _ _ _ hstyle]
      have hc : (if ce ≠ npos then some ((contentField s).getD []) else none) =
          contentField s := by
        cases hcf : contentField s with
        | none =>
          rw [hcf] at hce
          have : ¬ ce ≠ npos := fun h' => by simpa using hce.1 h'
          rw [if_neg this]
        | some c =>
          rw [hcf] at hce
          rw [if_pos (hce.2 rfl)]
          rfl
      rw [hc]

/-! ## Lemmas on instructions of a known shape -/

theorem takeWhile_append_stop (p : Nat → Bool) (a : Str) (x : Nat) (r : Str)
    (ha : ∀ y ∈ a, p y = true) (hx : p x = false) : (a ++ x :: r).takeWhile p = a := by
  rw [takeWhile_append_of_all p a _ ha, List.takeWhile_cons]
  simp [hx]

theorem takeWhile_ne_append (ch : Nat) (a r : Str) (h : ch ∉ a) :
    (a ++ ch :: r).takeWhile (fun c => c != ch) = a := by
  apply takeWhile_append_stop
  · intro y hy
    simp only [bne_iff_ne, ne_eq]
    intro e
    exact h (e ▸ hy)
  · simp

theorem afterFirst_append (ch : Nat) (a r : Str) (h : ch ∉ a) :
    afterFirst ch (a ++ ch :: r) = r := by
  have hmem : ch ∈ a ++ ch :: r := by simp
  have h1 := split_at_first ch (a ++ ch :: r) hmem
  rw [takeWhile_ne_append ch a r h] at h1
  have h2 := List.append_cancel_left h1
  simp only [List.cons.injEq, true_and] at h2
  exact h2.symm

/-- The content field is `c` exactly when the instruction holds a closed quote pair whose
first two quotes enclose `c`. -/
theorem contentField_eq_some_iff (s c : Str) :
    contentField s = some c ↔
      ∃ a r : Str, s = a ++ 39 :: (c ++ 39 :: r) ∧ 39 ∉ a ∧ 39 ∉ c := by
  constructor
  · intro h
    unfold contentField at h
    by_cases h2 : 39 ∈ afterFirst 39 s
    · rw [if_pos h2] at h
      have hc : (afterFirst 39 s).takeWhile (fun c => c != 39) = c := Option.some.inj h
      have h1 : 39 ∈ s := by
        by_contra hn
        rw [afterFirst_of_not_mem 39 s hn] at h2
        simp at h2
      refine ⟨s.takeWhile (fun c => c != 39), afterFirst 39 (afterFirst 39 s), ?_, ?_, ?_⟩
      · have e1 := split_at_first 39 s h1
        have e2 := split_at_first 39 (afterFirst 39 s) h2
        rw [hc] at e2
        rw [← e2]
        exact e1
      · intro hm
        exact takeWhile_ne_all 39 s 39 hm rfl
      · intro hm
        rw [← hc] at hm
        exact takeWhile_ne_all 39 _ 39 hm rfl
    · rw [if_neg h2] at h
      exact absurd h (by simp)
  · rintro ⟨a, r, rfl, ha, hc⟩
    unfold contentField
    rw [afterFirst_append 39 a _ ha, if_pos (by simp), takeWhile_ne_append 39 c r hc]

theorem decode_A1 (U : Nat) (hU : 4294967295 ≤ U) :
    s_cellAddressToRowCol U (ascii "A1") = (1, 1) := by
  have h := cellAddressToRowCol_getCellAddress U [] 1 1 hU (by decide) (by decide) (by decide)
    (by decide)
  have e : s_getCellAddress [] 1 1 = ascii "A1" := by decide
  rw [e] at h
  exact h

theorem anchoredField_absent (ch : Nat) (p : Nat → Bool) (u : Str) (h : ch ∉ u) :
    anchoredField ch p u = [] := by
  rw [anchoredField, if_neg h]

/-- A field closed by a stop byte `x`: anchor, field `v`, stop. -/
theorem anchoredField_closed (ch : Nat) (p : Nat → Bool) (a v : Str) (x : Nat) (r : Str)
    (ha : ch ∉ a) (hap : ∀ y ∈ a, p y = true) (hv : ∀ y ∈ v, p y = true) (hx : p x = false) :
    anchoredField ch p (a ++ ch :: (v ++ x :: r)) = v := by
  rw [anchoredField, if_pos (by simp), takeWhile_ne_append ch a _ ha,
    if_pos (List.all_eq_true.2 hap), afterFirst_append ch a _ ha,
    takeWhile_append_stop p v x r hv hx]

/-- A field that runs to the end of the string. -/
theorem anchoredField_open (ch : Nat) (p : Nat → Bool) (a v : Str)
    (ha : ch ∉ a) (hap : ∀ y ∈ a, p y = true) (hv : ∀ y ∈ v, p y = true) :
    anchoredField ch p (a ++ ch :: v) = v := by
  rw [anchoredField, if_pos (by simp), takeWhile_ne_append ch a _ ha,
    if_pos (List.all_eq_true.2 hap), afterFirst_append ch a _ ha,
    List.takeWhile_eq_self_iff.2 hv]

/-- An instruction that opens with a quoted content free of quotes and of `@`, followed by
`@`: its content field and the text after its `@`. -/
theorem quoted_then_at (c rest : Str) (h39 : 39 ∉ c) (h64 : 64 ∉ c) :
    contentField (39 :: (c ++ 39 :: 64 :: rest)) = some c ∧
      afterFirst 64 (39 :: (c ++ 39 :: 64 :: rest)) = rest ∧
      64 ∈ 39 :: (c ++ 39 :: 64 :: rest) := by
  refine ⟨?_, ?_, by simp⟩
  · rw [contentField_eq_some_iff]
    exact ⟨[], 64 :: rest, rfl, by simp, h39⟩
  · have e : 39 :: (c ++ 39 :: 64 :: rest) = (39 :: (c ++ [39])) ++ 64 :: rest := by simp
    rw [e]
    apply afterFirst_append
    simp only [List.mem_cons, List.mem_append, List.mem_singleton, not_or]
    exact ⟨by decide, h64, by decide⟩

theorem notStop_of_address_byte (c : Nat) (h : (65 ≤ c ∧ c ≤ 90) ∨ (48 ≤ c ∧ c ≤ 57)) :
    notStop3 c = true ∧ notStop2 c = true ∧ notStop1 c = true ∧ c ≠ 35 ∧ c ≠ 36 ∧ c ≠ 37 := by
  simp only [notStop3, notStop2, notStop1, Bool.and_eq_true, bne_iff_ne, ne_eq]
  omega

/-- The edit of an instruction whose address field decodes to a valid pair. -/
theorem parse_of_valid_address (U : Nat) (hU : 4294967295 ≤ U) (s : Str)
    (hlen : s.length < npos) (h64 : 64 ∈ s) (row col : Nat)
    (hdec : s_cellAddressToRowCol U (addressField s) = (row, col))
    (hrow : 1 ≤ row) (hcol : 1 ≤ col) :
    parse_cell_instruction U s = .ok (.edit
      { row := row, col := col,
        content := contentField s,
        alignment := refAlignment (anchoredField 35 notStop2 (afterFirst 64 s)),
        bold := refToggle 66 98 (anchoredField 35 notStop2 (afterFirst 64 s)),
        italic := refToggle 73 105 (anchoredField 35 notStop2 (afterFirst 64 s)),
        underline := refToggle 85 117 (anchoredField 35 notStop2 (afterFirst 64 s)),
        foreground :=
          if anchoredField 36 notStop1 (afterFirst 64 s) = [] then none
          else some (decodedColour U (anchoredField 36 notStop1 (afterFirst 64 s))),
        background :=
          if afterFirst 37 (afterFirst 64 s) = [] then none
          else some (decodedColour U (afterFirst 37 (afterFirst 64 s))) }) := by
  have hp := (parse_spec U hU s hlen).2 h64
  rw [hdec] at hp
  have hv : ¬ ((row, col).1 = 0 ∨ (row, col).2 = 0) := by
    simp only
    omega
  rw [if_neg hv] at hp
  exact hp

/-! ## Theorems on the instruction parser -/

/-- C3: outcome classification of the parser. For every instruction string (shorter than
`npos`) the instruction is rejected as MissingAddress exactly when it contains no `@`; when
it contains `@`, it is rejected as InvalidAddress exactly when the address substring (the text
after the first `@` up to the nearest `#`, `$`, `%` or the end) decodes to a pair with row 0
or column 0; in every other case an edit is produced, and the row and column of every
produced edit are both at least 1; parsing never throws. The instruction `'hello'` is
MissingAddress and `'hi'@@@` is InvalidAddress. -/
theorem parse_outcome_classification (ULONG_MAX : Nat) (hU : 4294967295 ≤ ULONG_MAX) :
    (∀ s : Str, s.length < npos →
      (parse_cell_instruction ULONG_MAX s = .ok .MissingAddress ↔ 64 ∉ s) ∧
      (64 ∈ s →
        (parse_cell_instruction ULONG_MAX s = .ok .InvalidAddress ↔
          (s_cellAddressToRowCol ULONG_MAX (addressField s)).1 = 0 ∨
            (s_cellAddressToRowCol ULONG_MAX (addressField s)).2 = 0)) ∧
      (64 ∈ s →
        ¬ ((s_cellAddressToRowCol ULONG_MAX (addressField s)).1 = 0 ∨
            (s_cellAddressToRowCol ULONG_MAX (addressField s)).2 = 0) →
        ∃ e, parse_cell_instruction ULONG_MAX s = .ok (.edit e)) ∧
      (∀ e, parse_cell_instruction ULONG_MAX s = .ok (.edit e) → 1 ≤ e.row ∧ 1 ≤ e.col)) ∧
    parse_cell_instruction ULONG_MAX (ascii "'hello'") = .ok .MissingAddress ∧
    parse_cell_instruction ULONG_MAX (ascii "'hi'@@@") = .ok .InvalidAddress := by
  refine ⟨?_, ?_, ?_⟩
  · intro s hlen
    obtain ⟨p1, p2⟩ := parse_spec ULONG_MAX hU s hlen
    by_cases h : 64 ∈ s
    · have hp := p2 h
      by_cases hinv : (s_cellAddressToRowCol ULONG_MAX (addressField s)).1 = 0 ∨
          (s_cellAddressToRowCol ULONG_MAX (addressField s)).2 = 0
      · rw [if_pos hinv] at hp
        refine ⟨?_, ?_, ?_, ?_⟩
        · rw [hp]
          simp [h]
        · intro _
          rw [hp]
          simp [hinv]
        · intro _ hn
          exact absurd hinv hn
        · intro e he
          rw [hp] at he
          simp at he
      · rw [if_neg hinv] at hp
        refine ⟨?_, ?_, ?_, ?_⟩
        · rw [hp]
          simp [h]
        · intro _
          rw [hp]
          simp [hinv]
        · intro _ _
          exact ⟨_, hp⟩
        · intro e he
          rw [hp] at he
          simp only [Except.ok.injEq, ParseResult.edit.injEq] at he
          subst he
          simp only
          omega
    · have hp := p1 h
      refine ⟨?_, ?_, ?_, ?_⟩
      · rw [hp]
        simp [h]
      · intro h'
        exact absurd h' h
      · intro h'
        exact absurd h' h
      · intro e he
        rw [hp] at he
        simp at he
  · exact (parse_spec ULONG_MAX hU (ascii "'hello'") (by decide)).1 (by decide)
  · have hp := (parse_spec ULONG_MAX hU (ascii "'hi'@@@") (by decide)).2 (by decide)
    have ha : addressField (ascii "'hi'@@@") = ascii "@@" := by decide
    have hd : s_cellAddressToRowCol ULONG_MAX (ascii "@@") = (0, 0) := by
      rw [cellAddressToRowCol_eq, if_pos (Or.inl (by decide))]
    rw [ha, hd] at hp
    rw [hp, if_pos (Or.inl rfl)]

/-- Witness of C3 with a 32-bit `unsigned long`: the instruction `@A0` is shorter than `npos`
and contains `@`, so it is rejected as InvalidAddress exactly when its address field `A0`
decodes to row 0 or column 0. -/
theorem parse_outcome_classification_witness :
    parse_cell_instruction 4294967295 (ascii "@A0") = .ok .InvalidAddress ↔
      (s_cellAddressToRowCol 4294967295 (addressField (ascii "@A0"))).1 = 0 ∨
        (s_cellAddressToRowCol 4294967295 (addressField (ascii "@A0"))).2 = 0 :=
  ((parse_outcome_classification 4294967295 (by decide)).1 (ascii "@A0") (by decide)).2.1
    (by decide)

/-- C5: absent content is distinguished from explicit empty content. For every instruction
that parses to an edit, the content is present exactly when the instruction contains a closed
quote pair, and then it is the text between the first two single quotes. The instruction
`''@A1` gives present, empty content, while `@A1` and `'abc@A1` (an opening quote without
a closing one) give absent content and are still accepted. -/
theorem content_presence (ULONG_MAX : Nat) (hU : 4294967295 ≤ ULONG_MAX) :
    (∀ (s : Str) (e : CellEdit), s.length < npos →
      parse_cell_instruction ULONG_MAX s = .ok (.edit e) →
      ∀ c : Str, e.content = some c ↔
        ∃ a r : Str, s = a ++ 39 :: (c ++ 39 :: r) ∧ 39 ∉ a ∧ 39 ∉ c) ∧
    (∃ e, parse_cell_instruction ULONG_MAX (ascii "''@A1") = .ok (.edit e) ∧
      e.content = some []) ∧
    (∃ e, parse_cell_instruction ULONG_MAX (ascii "@A1") = .ok (.edit e) ∧
      e.content = none) ∧
    (∃ e, parse_cell_instruction ULONG_MAX (ascii "'abc@A1") = .ok (.edit e) ∧
      e.content = none) := by
  refine ⟨?_, ?_, ?_, ?_⟩
  · intro s e hlen he c
    obtain ⟨p1, p2⟩ := parse_spec ULONG_MAX hU s hlen
    by_cases h : 64 ∈ s
    · have hp := p2 h
      rw [he] at hp
      by_cases hinv : (s_cellAddressToRowCol ULONG_MAX (addressField s)).1 = 0 ∨
          (s_cellAddressToRowCol ULONG_MAX (addressField s)).2 = 0
      · rw [if_pos hinv] at hp
        simp at hp
      · rw [if_neg hinv] at hp
        simp only [Except.ok.injEq, ParseResult.edit.injEq] at hp
        subst hp
        exact contentField_eq_some_iff s c
    · have hp := p1 h
      rw [he] at hp
      simp at hp
  · exact ⟨_, parse_of_valid_address ULONG_MAX hU (ascii "''@A1") (by decide) (by decide) 1 1
      (by rw [show addressField (ascii "''@A1") = ascii "A1" from by decide]
          exact decode_A1 ULONG_MAX hU) (by decide) (by decide),
      show contentField (ascii "''@A1") = some [] from by decide⟩
  · exact ⟨_, parse_of_valid_address ULONG_MAX hU (ascii "@A1") (by decide) (by decide) 1 1
      (by rw [show addressField (ascii "@A1") = ascii "A1" from by decide]
          exact decode_A1 ULONG_MAX hU) (by decide) (by decide),
      show contentField (ascii "@A1") = none from by decide⟩
  · exact ⟨_, parse_of_valid_address ULONG_MAX hU (ascii "'abc@A1") (by decide) (by decide) 1 1
      (by rw [show addressField (ascii "'abc@A1") = ascii "A1" from by decide]
          exact decode_A1 ULONG_MAX hU) (by decide) (by decide),
      show contentField (ascii "'abc@A1") = none from by decide⟩

/-- Witness of C5 with a 64-bit `unsigned long`, on the instruction `'x'@B2`: its edit has the
content `x`, so the instruction splits around a closed quote pair enclosing `x`. -/
theorem content_presence_witness :
    ∃ a r : Str, ascii "'x'@B2" = a ++ 39 :: (ascii "x" ++ 39 :: r) ∧ 39 ∉ a ∧
      39 ∉ ascii "x" :=
  ((content_presence 18446744073709551615 (by decide)).1 (ascii "'x'@B2")
    { row := 2, col := 2, content := some (ascii "x"), alignment := none, bold := none,
      italic := none, underline := none, foreground := none, background := none }
    (by decide) (by decide) (ascii "x")).1 rfl

/-- C7, as stated, fails: the content `a@b` has no single quote, yet `'a@b'@A1` (the address
being the encoding of row 1, column 1) is parsed from its first `@`, inside the quotes, and
the edit goes to row 1, column 53 and not to (1, 1). -/
theorem content_with_at_counterexample :
    39 ∉ ascii "a@b" ∧
    parse_cell_instruction 4294967295
        (ascii "'" ++ ascii "a@b" ++ ascii "'@" ++ s_getCellAddress [] 1 1) =
      .ok (.edit
        { row := 1, col := 53, content := some (ascii "a@b"), alignment := none, bold := none,
          italic := none, underline := none, foreground := none, background := none }) ∧
    ¬ ∃ e, parse_cell_instruction 4294967295
        (ascii "'" ++ ascii "a@b" ++ ascii "'@" ++ s_getCellAddress [] 1 1) = .ok (.edit e) ∧
      e.content = some (ascii "a@b") ∧ e.row = 1 ∧ e.col = 1 := by
  have h : parse_cell_instruction 4294967295
      (ascii "'" ++ ascii "a@b" ++ ascii "'@" ++ s_getCellAddress [] 1 1) =
      .ok (.edit
        { row := 1, col := 53, content := some (ascii "a@b"), alignment := none, bold := none,
          italic := none, underline := none, foreground := none, background := none }) := by
    decide
  refine ⟨by decide, h, ?_⟩
  rintro ⟨e, he, _, _, hcol⟩
  rw [h] at he
  simp only [Except.ok.injEq, ParseResult.edit.injEq] at he
  rw [← he] at hcol
  simp at hcol

/-- C7, amended: for every content string `c` containing no single quote and no `@`, and
every row and column that are at least 1 (unsigned 32-bit values), parsing
`'` + c + `'@` + encode(row, column) yields the edit with content `c` at (row, column) that
sets nothing else. -/
theorem content_without_quote_or_at (ULONG_MAX : Nat) (invalid_address c : Str) (row col : Nat)
    (hU : 4294967295 ≤ ULONG_MAX) (h39 : 39 ∉ c) (h64 : 64 ∉ c)
    (hrow : 1 ≤ row) (hrow32 : row < 4294967296) (hcol : 1 ≤ col) (hcol32 : col < 4294967296)
    (hlen : (ascii "'" ++ c ++ ascii "'@" ++ s_getCellAddress invalid_address row col).length
      < npos) :
    parse_cell_instruction ULONG_MAX
        (ascii "'" ++ c ++ ascii "'@" ++ s_getCellAddress invalid_address row col) =
      .ok (.edit
        { row := row, col := col, content := some c, alignment := none, bold := none,
          italic := none, underline := none, foreground := none, background := none }) := by
  have hshape : ascii "'" ++ c ++ ascii "'@" ++ s_getCellAddress invalid_address row col =
      39 :: (c ++ 39 :: 64 :: s_getCellAddress invalid_address row col) := by
    have e1 : ascii "'" = [39] := by decide
    have e2 : ascii "'@" = [39, 64] := by decide
    rw [e1, e2]
    simp
  rw [hshape] at hlen ⊢
  obtain ⟨q1, q2, q3⟩ := quoted_then_at c (s_getCellAddress invalid_address row col) h39 h64
  have hb := getCellAddress_bytes invalid_address row col hrow hcol
  have haddr : addressField (39 :: (c ++ 39 :: 64 :: s_getCellAddress invalid_address row col))
      = s_getCellAddress invalid_address row col := by
    rw [addressField, q2, List.takeWhile_eq_self_iff]
    exact fun y hy => (notStop_of_address_byte y (hb y hy)).1
  have h35 : 35 ∉ s_getCellAddress invalid_address row col :=
    fun hm => (notStop_of_address_byte 35 (hb 35 hm)).2.2.2.1 rfl
  have h36 : 36 ∉ s_getCellAddress invalid_address row col :=
    fun hm => (notStop_of_address_byte 36 (hb 36 hm)).2.2.2.2.1 rfl
  have h37 : 37 ∉ s_getCellAddress invalid_address row col :=
    fun hm => (notStop_of_address_byte 37 (hb 37 hm)).2.2.2.2.2 rfl
  have hp := parse_of_valid_address ULONG_MAX hU _ hlen q3 row col
    (by rw [haddr]; exact cellAddressToRowCol_getCellAddress ULONG_MAX invalid_address row col
          hU hrow hrow32 hcol hcol32) hrow hcol
  obtain ⟨r1, r2, r3, r4⟩ := refStyle_nil
  rw [q1, q2, anchoredField_absent 35 _ _ h35, anchoredField_absent 36 _ _ h36,
    afterFirst_of_not_mem 37 _ h37, r1, r2, r3, r4] at hp
  simpa using hp

/-- Witness of C7 (amended) with a 32-bit `unsigned long`: `'Total'@B3`. -/
theorem content_without_quote_or_at_witness :
    parse_cell_instruction 4294967295
        (ascii "'" ++ ascii "Total" ++ ascii "'@" ++ s_getCellAddress [] 3 2) =
      .ok (.edit
        { row := 3, col := 2, content := some (ascii "Total"), alignment := none, bold := none,
          italic := none, underline := none, foreground := none, background := none }) :=
  content_without_quote_or_at 4294967295 [] (ascii "Total") 3 2 (by decide) (by decide)
    (by decide) (by decide) (by decide) (by decide) (by decide) (by decide)

/-- C2: full field extraction of a well-formed instruction. For every content `c` without
single quote and without `@`, every row and column that are at least 1 (unsigned 32-bit
values), every style string `st` without `$` and `%`, and every `fg` and `bg` of exactly six
hexadecimal digits, parsing `'` + c + `'@` + encode(row, column) + `#` + st + `$` + fg +
`%` + bg yields the edit with content `c`, address (row, column), the style flags decoded
from `st`, and the foreground and background bytes denoted by the hex pairs of `fg`, `bg`. -/
theorem full_field_extraction (ULONG_MAX : Nat) (invalid_address c : Str) (row col : Nat)
    (st fg bg : Str) (hU : 4294967295 ≤ ULONG_MAX) (h39 : 39 ∉ c) (h64 : 64 ∉ c)
    (hrow : 1 ≤ row) (hrow32 : row < 4294967296) (hcol : 1 ≤ col) (hcol32 : col < 4294967296)
    (hst36 : 36 ∉ st) (hst37 : 37 ∉ st)
    (hfg : fg.length = 6 ∧ ∀ x ∈ fg, isHexDigit x = true)
    (hbg : bg.length = 6 ∧ ∀ x ∈ bg, isHexDigit x = true)
    (hlen : (ascii "'" ++ c ++ ascii "'@" ++ s_getCellAddress invalid_address row col ++
      ascii "#" ++ st ++ ascii "$" ++ fg ++ ascii "%" ++ bg).length < npos) :
    parse_cell_instruction ULONG_MAX
        (ascii "'" ++ c ++ ascii "'@" ++ s_getCellAddress invalid_address row col ++
          ascii "#" ++ st ++ ascii "$" ++ fg ++ ascii "%" ++ bg) =
      .ok (.edit
        { row := row, col := col, content := some c,
          alignment := refAlignment st,
          bold := refToggle 66 98 st,
          italic := refToggle 73 105 st,
          underline := refToggle 85 117 st,
          foreground := some (hexColour fg),
          background := some (hexColour bg) }) := by
  have hshape : ascii "'" ++ c ++ ascii "'@" ++ s_getCellAddress invalid_address row col ++
      ascii "#" ++ st ++ ascii "$" ++ fg ++ ascii "%" ++ bg =
      39 :: (c ++ 39 :: 64 :: (s_getCellAddress invalid_address row col ++
        35 :: (st ++ 36 :: (fg ++ 37 :: bg)))) := by
    have e1 : ascii "'" = [39] := by decide
    have e2 : ascii "'@" = [39, 64] := by decide
    have e3 : ascii "#" = [35] := by decide
    have e4 : ascii "$" = [36] := by decide
    have e5 : ascii "%" = [37] := by decide
    rw [e1, e2, e3, e4, e5]
    simp
  rw [hshape] at hlen ⊢
  obtain ⟨q1, q2, q3⟩ := quoted_then_at c (s_getCellAddress invalid_address row col ++
    35 :: (st ++ 36 :: (fg ++ 37 :: bg))) h39 h64
  have hb := getCellAddress_bytes invalid_address row col hrow hcol
  have hfg37 : ∀ y ∈ fg, notStop1 y = true := by
    intro y hy
    have := hfg.2 y hy
    simp only [isHexDigit, Bool.or_eq_true, Bool.and_eq_true, decide_eq_true_eq] at this
    simp only [notStop1, bne_iff_ne, ne_eq]
    omega
  have hst2 : ∀ y ∈ st, notStop2 y = true := by
    intro y hy
    simp only [notStop2, notStop1, Bool.and_eq_true, bne_iff_ne, ne_eq]
    exact ⟨fun e => hst36 (e ▸ hy), fun e => hst37 (e ▸ hy)⟩
  have haddr : addressField (39 :: (c ++ 39 :: 64 :: (s_getCellAddress invalid_address row col
      ++ 35 :: (st ++ 36 :: (fg ++ 37 :: bg))))) = s_getCellAddress invalid_address row col := by
    rw [addressField, q2]
    exact takeWhile_append_stop notStop3 _ 35 _
      (fun y hy => (notStop_of_address_byte y (hb y hy)).1) (by decide)
  have hstyle : anchoredField 35 notStop2 (s_getCellAddress invalid_address row col ++
      35 :: (st ++ 36 :: (fg ++ 37 :: bg))) = st :=
    anchoredField_closed 35 notStop2 _ st 36 _
      (fun hm => (notStop_of_address_byte 35 (hb 35 hm)).2.2.2.1 rfl)
      (fun y hy => (notStop_of_address_byte y (hb y hy)).2.1) hst2 (by decide)
  have hfgf : anchoredField 36 notStop1 (s_getCellAddress invalid_address row col ++
      35 :: (st ++ 36 :: (fg ++ 37 :: bg))) = fg := by
    have e : s_getCellAddress invalid_address row col ++ 35 :: (st ++ 36 :: (fg ++ 37 :: bg)) =
        (s_getCellAddress invalid_address row col ++ 35 :: st) ++ 36 :: (fg ++ 37 :: bg) := by
      simp
    rw [e]
    apply anchoredField_closed 36 notStop1 _ fg 37 bg
    · simp only [List.mem_append, List.mem_cons, not_or]
      exact ⟨fun hm => (notStop_of_address_byte 36 (hb 36 hm)).2.2.2.2.1 rfl, by decide, hst36⟩
    · intro y hy
      simp only [List.mem_append, List.mem_cons] at hy
      rcases hy with hy | rfl | hy
      · exact (notStop_of_address_byte y (hb y hy)).2.2.1
      · decide
      · have := hst2 y hy
        simp only [notStop2, Bool.and_eq_true] at this
        exact this.2
    · exact hfg37
    · decide
  have hbgf : afterFirst 37 (s_getCellAddress invalid_address row col ++
      35 :: (st ++ 36 :: (fg ++ 37 :: bg))) = bg := by
    have e : s_getCellAddress invalid_address row col ++ 35 :: (st ++ 36 :: (fg ++ 37 :: bg)) =
        (s_getCellAddress invalid_address row col ++ 35 :: (st ++ 36 :: fg)) ++ 37 :: bg := by
      simp
    rw [e]
    apply afterFirst_append
    simp only [List.mem_append, List.mem_cons, not_or]
    refine ⟨fun hm => (notStop_of_address_byte 37 (hb 37 hm)).2.2.2.2.2 rfl, by decide, hst37,
      by decide, ?_⟩
    intro hm
    have := hfg37 37 hm
    simp [notStop1] at this
  have hp := parse_of_valid_address ULONG_MAX hU _ hlen q3 row col
    (by rw [haddr]; exact cellAddressToRowCol_getCellAddress ULONG_MAX invalid_address row col
          hU hrow hrow32 hcol hcol32) hrow hcol
  have hfgne : fg ≠ [] := by
    intro e
    rw [e] at hfg
    simp at hfg
  have hbgne : bg ≠ [] := by
    intro e
    rw [e] at hbg
    simp at hbg
  have dfg : decodedColour ULONG_MAX fg = hexColour fg := by
    simp [decodedColour, hexToRgb_hex ULONG_MAX hU fg hfg.1 hfg.2]
  have dbg : decodedColour ULONG_MAX bg = hexColour bg := by
    simp [decodedColour, hexToRgb_hex ULONG_MAX hU bg hbg.1 hbg.2]
  rw [q1, q2, hstyle, hfgf, hbgf, if_neg hfgne, if_neg hbgne, dfg, dbg] at hp
  exact hp

/-- Witness of C2 with a 32-bit `unsigned long`: the instruction
`'Total'@B3#B$FF0000%00FF00` gives content `Total`, address (row 3, column 2), bold enabled,
foreground (255,0,0) and background (0,255,0). -/
theorem full_field_extraction_witness :
    parse_cell_instruction 4294967295 (ascii "'Total'@B3#B$FF0000%00FF00") =
      .ok (.edit
        { row := 3, col := 2, content := some (ascii "Total"), alignment := none,
          bold := some true, italic := none, underline := none,
          foreground := some (255, 0, 0), background := some (0, 255, 0) }) :=
  full_field_extraction 4294967295 [] (ascii "Total") 3 2 (ascii "B") (ascii "FF0000")
    (ascii "00FF00") (by decide) (by decide) (by decide) (by decide) (by decide) (by decide)
    (by decide) (by decide) (by decide) (by decide) (by decide) (by decide)

/-- C6, as stated, fails: in `@A1%$F%#B$b` a `%` and a `$` stand between the `@` and the `#`.
The text after the `#` up to the nearest `$` or `%` is `B` and the text after the first `$`
up to the nearest `%` is `F`, but the extracted style field is `B$b` (it contains `$`) and
the extracted foreground field is `F%#B$b` (it contains `%`); the edit disables bold. -/
theorem field_boundaries_counterexample :
    64 ∈ ascii "@A1%$F%#B$b" ∧
    (afterFirst 35 (afterFirst 64 (ascii "@A1%$F%#B$b"))).takeWhile notStop2 = ascii "B" ∧
    (afterFirst 36 (afterFirst 64 (ascii "@A1%$F%#B$b"))).takeWhile notStop1 = ascii "F" ∧
    extractFields (ascii "@A1%$F%#B$b") = .ok (some
      { content_end := npos, content := [], address := ascii "A1", style := ascii "B$b",
        fg_color := ascii "F%#B$b", bg_color := ascii "$F%#B$b" }) ∧
    36 ∈ ascii "B$b" ∧ 37 ∈ ascii "F%#B$b" ∧
    parse_cell_instruction 4294967295 (ascii "@A1%$F%#B$b") = .ok (.edit
      { row := 1, col := 1, content := none, alignment := none, bold := some false,
        italic := none, underline := none, foreground := some (0, 0, 0),
        background := some (0, 0, 0) }) := by
  refine ⟨by decide, by decide, by decide, by decide, by decide, by decide, by decide⟩

theorem not_mem_takeWhile_notStop2 (l : Str) :
    36 ∉ l.takeWhile notStop2 ∧ 37 ∉ l.takeWhile notStop2 := by
  constructor
  · intro h
    have := List.mem_takeWhile_imp h
    simp [notStop2] at this
  · intro h
    have := List.mem_takeWhile_imp h
    simp [notStop2, notStop1] at this

theorem not_mem_takeWhile_notStop1 (l : Str) : 37 ∉ l.takeWhile notStop1 := by
  intro h
  have := List.mem_takeWhile_imp h
  simp [notStop1] at this

/-- C6, amended: for every instruction containing `@` the extraction succeeds, and with `u`
the text after the first `@`: if `#` occurs in `u` and no `$` or `%` stands before the first
`#`, the style field is the text from just after that `#` up to the nearest `$` or `%` (or
the end of the string) and contains neither `$` nor `%`; if `$` occurs in `u` and no `%`
stands before the first `$`, the foreground field is the text from just after that `$` up to
the nearest `%` (or the end of the string) and contains no `%`. -/
theorem field_boundaries_in_order (s : Str) (hlen : s.length < npos) (h64 : 64 ∈ s) :
    ∃ f : Fields, extractFields s = .ok (some f) ∧
      (35 ∈ afterFirst 64 s →
        (∀ x ∈ (afterFirst 64 s).takeWhile (fun c => c != 35), x ≠ 36 ∧ x ≠ 37) →
        f.style = (afterFirst 35 (afterFirst 64 s)).takeWhile notStop2 ∧
          36 ∉ f.style ∧ 37 ∉ f.style) ∧
      (36 ∈ afterFirst 64 s →
        (∀ x ∈ (afterFirst 64 s).takeWhile (fun c => c != 36), x ≠ 37) →
        f.fg_color = (afterFirst 36 (afterFirst 64 s)).takeWhile notStop1 ∧
          37 ∉ f.fg_color) := by
  obtain ⟨ce, _, hf⟩ := (extractFields_spec s hlen).2 h64
  refine ⟨_, hf, ?_, ?_⟩
  · intro h35 hbefore
    have hall : ((afterFirst 64 s).takeWhile (fun c => c != 35)).all notStop2 = true := by
      rw [List.all_eq_true]
      intro x hx
      have := hbefore x hx
      simp only [notStop2, notStop1, Bool.and_eq_true, bne_iff_ne, ne_eq]
      exact this
    have e : anchoredField 35 notStop2 (afterFirst 64 s) =
        (afterFirst 35 (afterFirst 64 s)).takeWhile notStop2 := by
      rw [anchoredField, if_pos h35, if_pos hall]
    simp only [e]
    exact ⟨trivial, not_mem_takeWhile_notStop2 _⟩
  · intro h36 hbefore
    have hall : ((afterFirst 64 s).takeWhile (fun c => c != 36)).all notStop1 = true := by
      rw [List.all_eq_true]
      intro x hx
      have := hbefore x hx
      simp only [notStop1, bne_iff_ne, ne_eq]
      exact this
    have e : anchoredField 36 notStop1 (afterFirst 64 s) =
        (afterFirst 36 (afterFirst 64 s)).takeWhile notStop1 := by
      rw [anchoredField, if_pos h36, if_pos hall]
    simp only [e]
    exact ⟨trivial, not_mem_takeWhile_notStop1 _⟩

/-- Witness of C6 (amended) on `@A1#B$FF0000%00FF00`, whose anchors are in order. -/
theorem field_boundaries_in_order_witness :
    ∃ f : Fields, extractFields (ascii "@A1#B$FF0000%00FF00") = .ok (some f) ∧
      (35 ∈ afterFirst 64 (ascii "@A1#B$FF0000%00FF00") →
        (∀ x ∈ (afterFirst 64 (ascii "@A1#B$FF0000%00FF00")).takeWhile (fun c => c != 35),
          x ≠ 36 ∧ x ≠ 37) →
        f.style = (afterFirst 35 (afterFirst 64 (ascii "@A1#B$FF0000%00FF00"))).takeWhile
            notStop2 ∧ 36 ∉ f.style ∧ 37 ∉ f.style) ∧
      (36 ∈ afterFirst 64 (ascii "@A1#B$FF0000%00FF00") →
        (∀ x ∈ (afterFirst 64 (ascii "@A1#B$FF0000%00FF00")).takeWhile (fun c => c != 36),
          x ≠ 37) →
        f.fg_color = (afterFirst 36 (afterFirst 64 (ascii "@A1#B$FF0000%00FF00"))).takeWhile
            notStop1 ∧ 37 ∉ f.fg_color) :=
  field_boundaries_in_order (ascii "@A1#B$FF0000%00FF00") (by decide) (by decide)

/-! ## Theorems on overflow, colours and style tokens -/

/-- C8 at its failing inputs. The letters `ZZZZZZZ` denote column 8353082582, which does not
fit 32 bits, and decoding `ZZZZZZZ1` returns the wrapped column 4058115286 and not the
sentinel, whatever the width of `unsigned long`. The digits of `A4294967297` denote a row
that does not fit 32 bits: with a 32-bit `unsigned long` the exception of `std::stoul` is
caught and the result is the sentinel, but with a 64-bit `unsigned long` the value is
narrowed to `uint32_t` and the row returned is 1. -/
theorem overflow_wraps_around :
    lettersValue (ascii "ZZZZZZZ") = 8353082582 ∧ ¬ 8353082582 < 4294967296 ∧
    s_cellAddressToRowCol 4294967295 (ascii "ZZZZZZZ1") = (1, 4058115286) ∧
    s_cellAddressToRowCol 18446744073709551615 (ascii "ZZZZZZZ1") = (1, 4058115286) ∧
    digitsValue 10 (ascii "4294967297") = 4294967297 ∧ ¬ 4294967297 < 4294967296 ∧
    s_cellAddressToRowCol 4294967295 (ascii "A4294967297") = (0, 0) ∧
    s_cellAddressToRowCol 18446744073709551615 (ascii "A4294967297") = (1, 1) := by
  refine ⟨by decide, by decide, by decide, by decide, by decide, by decide, by decide,
    by decide⟩

/-- What the decoder does with large numbers, as the code stands: for every address string
with at least one letter and one digit, decoding returns the sentinel (0,0) when the digits
denote a number above `ULONG_MAX` (the exception of `std::stoul` is caught); otherwise the row
and the column come back reduced modulo `2 ^ 32`. -/
theorem overflow_behaviour (ULONG_MAX : Nat) (address : Str)
    (hL : address.filter isalpha ≠ []) (hD : address.filter isdigit ≠ []) :
    (digitsValue 10 (address.filter isdigit) > ULONG_MAX →
      s_cellAddressToRowCol ULONG_MAX address = (0, 0)) ∧
    (digitsValue 10 (address.filter isdigit) ≤ ULONG_MAX →
      s_cellAddressToRowCol ULONG_MAX address =
        (digitsValue 10 (address.filter isdigit) % 4294967296,
          lettersValue (address.filter isalpha) % 4294967296)) := by
  have hne : ¬ (address.filter isalpha = [] ∨ address.filter isdigit = []) := by
    intro h
    rcases h with h | h
    · exact hL h
    · exact hD h
  rw [cellAddressToRowCol_eq, if_neg hne]
  constructor
  · intro h
    rw [if_pos h]
  · intro h
    rw [if_neg (by omega)]

/-- An instance with a 32-bit `unsigned long` on `A4294967296`: the digits exceed `ULONG_MAX`
and the result is the sentinel. -/
theorem overflow_behaviour_witness :
    digitsValue 10 ((ascii "A4294967296").filter isdigit) > 4294967295 ∧
      s_cellAddressToRowCol 4294967295 (ascii "A4294967296") = (0, 0) :=
  ⟨by decide, (overflow_behaviour 4294967295 (ascii "A4294967296") (by decide) (by decide)).1
    (by decide)⟩

/-- C9 at its failing input: `1G0000` is not six hexadecimal digits (`G` is none), and the
colour decoder returns (1,0,0) instead of black, because `std::stol` reads the leading `1` of
`1G` and ignores the rest; the instruction `@A1$1G0000` sets that foreground. A sign and a
blank are accepted as well, as `-10000` and ` F0000` show. -/
theorem malformed_colour_not_black :
    isHexDigit 71 = false ∧ (ascii "1G0000").length = 6 ∧
    s_hexToRgb 4294967295 (ascii "1G0000") = .ok (1, 0, 0) ∧
    s_hexToRgb 18446744073709551615 (ascii "1G0000") = .ok (1, 0, 0) ∧
    s_hexToRgb 4294967295 (ascii "-10000") = .ok (255, 0, 0) ∧
    s_hexToRgb 4294967295 (ascii " F0000") = .ok (15, 0, 0) ∧
    parse_cell_instruction 4294967295 (ascii "@A1$1G0000") = .ok (.edit
      { row := 1, col := 1, content := none, alignment := none, bold := none, italic := none,
        underline := none, foreground := some (1, 0, 0), background := none }) := by
  refine ⟨by decide, by decide, by decide, by decide, by decide, by decide, by decide⟩

/-- C10: reference definition of style decoding. For every style field `s` the edit made by
the style block is the reference decoding: bold is disabled if `s` contains `b`, otherwise
enabled if `s` contains `B`, otherwise unset (likewise italic with `i` / `I` and underline
with `u` / `U`); the alignment is the one of the glyph occurring in `s`, centre winning over
left and left over right, and unset when none occurs. Hence two style fields with the same
occurring tokens give the same edit (`Bb` and `bB` decode the same), and `B` and `b` are not
merged: `B` alone enables bold and `b` alone disables it. -/
theorem style_reference_definition :
    (∀ (row col : Nat) (s : Str), s.length < npos →
      editOf row col (if ¬ s.isEmpty then styleCalls row col s else []) = refStyle row col s) ∧
    (∀ (row col : Nat) (s t : Str), s.length < npos → t.length < npos →
      (∀ ch ∈ [66, 98, 73, 105, 85, 117], ch ∈ s ↔ ch ∈ t) →
      (∀ g ∈ [glyphRight, glyphLeft, glyphCenter], g <:+: s ↔ g <:+: t) →
      editOf row col (if ¬ s.isEmpty then styleCalls row col s else []) =
        editOf row col (if ¬ t.isEmpty then styleCalls row col t else [])) ∧
    editOf 1 1 (styleCalls 1 1 (ascii "Bb")) = editOf 1 1 (styleCalls 1 1 (ascii "bB")) ∧
    (editOf 1 1 (styleCalls 1 1 (ascii "Bb"))).bold = some false ∧
    (editOf 1 1 (styleCalls 1 1 (ascii "B"))).bold = some true ∧
    (editOf 1 1 (styleCalls 1 1 (ascii "b"))).bold = some false := by
  have main : ∀ (row col : Nat) (s : Str), s.length < npos →
      editOf row col (if ¬ s.isEmpty then styleCalls row col s else []) = refStyle row col s := by
    intro row col s hlen
    have h := editOf_calls row col npos [] [] s [] [] (0, 0, 0) (0, 0, 0) hlen
    simp only [ne_eq, not_true_eq_false, if_false, List.isEmpty_nil, List.nil_append,
      List.append_nil, if_true] at h
    rw [h]
    rfl
  refine ⟨main, ?_, by decide, by decide, by decide, by decide⟩
  intro row col s t hs ht htok hgly
  rw [main row col s hs, main row col t ht]
  have b1 := htok 66 (by simp)
  have b2 := htok 98 (by simp)
  have b3 := htok 73 (by simp)
  have b4 := htok 105 (by simp)
  have b5 := htok 85 (by simp)
  have b6 := htok 117 (by simp)
  have g1 := hgly glyphRight (by simp)
  have g2 := hgly glyphLeft (by simp)
  have g3 := hgly glyphCenter (by simp)
  simp only [refStyle, refToggle, refAlignment, b1, b2, b3, b4, b5, b6, g1, g2, g3]

/-- Witness of C10 on the style field `Bb`: bold is disabled and nothing else is set. -/
theorem style_reference_definition_witness :
    editOf 1 1 (if ¬ (ascii "Bb").isEmpty then styleCalls 1 1 (ascii "Bb") else []) =
      refStyle 1 1 (ascii "Bb") :=
  style_reference_definition.1 1 1 (ascii "Bb") (by decide)

/-! ## Theorems on the decoding scan -/

theorem filter_alpha_of_kept (s : Str) :
    (s.filter (fun c => isalpha c || isdigit c)).filter isalpha = s.filter isalpha ∧
      (s.filter (fun c => isalpha c || isdigit c)).filter isdigit = s.filter isdigit := by
  constructor
  · rw [List.filter_filter]
    apply List.filter_congr
    intro c _
    cases isalpha c <;> simp
  · rw [List.filter_filter]
    apply List.filter_congr
    intro c _
    cases isdigit c <;> simp

theorem filter_letters_append_digits (s : Str) :
    (s.filter isalpha ++ s.filter isdigit).filter isalpha = s.filter isalpha ∧
      (s.filter isalpha ++ s.filter isdigit).filter isdigit = s.filter isdigit := by
  have h1 : (s.filter isalpha).filter isdigit = [] := by
    rw [List.filter_eq_nil_iff]
    intro c hc hd
    have ha := (List.mem_filter.1 hc).2
    rw [not_isalpha_of_isdigit c hd] at ha
    exact Bool.false_ne_true ha
  have h2 : (s.filter isdigit).filter isalpha = [] := by
    rw [List.filter_eq_nil_iff]
    intro c hc ha
    have hd := (List.mem_filter.1 hc).2
    rw [not_isalpha_of_isdigit c hd] at ha
    exact Bool.false_ne_true ha
  constructor
  · rw [List.filter_append, h2, List.append_nil, List.filter_filter]
    apply List.filter_congr
    intro c _
    simp
  · rw [List.filter_append, h1, List.nil_append, List.filter_filter]
    apply List.filter_congr
    intro c _
    simp

/-- C12: sentinel on an empty run. For every string that contains no alphabetic character or
contains no digit character, decoding returns the invalid sentinel (0,0); in particular the
empty string, `1` and `A` decode to (0,0). -/
theorem decode_sentinel_on_empty_run (ULONG_MAX : Nat) :
    (∀ address : Str,
      ((∀ c ∈ address, isalpha c = false) ∨ (∀ c ∈ address, isdigit c = false)) →
      s_cellAddressToRowCol ULONG_MAX address = (0, 0)) ∧
    s_cellAddressToRowCol ULONG_MAX (ascii "") = (0, 0) ∧
    s_cellAddressToRowCol ULONG_MAX (ascii "1") = (0, 0) ∧
    s_cellAddressToRowCol ULONG_MAX (ascii "A") = (0, 0) := by
  have main : ∀ address : Str,
      ((∀ c ∈ address, isalpha c = false) ∨ (∀ c ∈ address, isdigit c = false)) →
      s_cellAddressToRowCol ULONG_MAX address = (0, 0) := by
    intro address h
    rw [cellAddressToRowCol_eq, if_pos]
    rcases h with h | h
    · left
      rw [List.filter_eq_nil_iff]
      intro c hc
      rw [h c hc]
      exact Bool.false_ne_true
    · right
      rw [List.filter_eq_nil_iff]
      intro c hc
      rw [h c hc]
      exact Bool.false_ne_true
  refine ⟨main, main _ (Or.inl (by decide)), main _ (Or.inl (by decide)),
    main _ (Or.inr (by decide))⟩

/-- Witness of C12 with a 64-bit `unsigned long` on the string `7 7`, which has no letter. -/
theorem decode_sentinel_on_empty_run_witness :
    (∀ c ∈ ascii "7 7", isalpha c = false) ∧
      s_cellAddressToRowCol 18446744073709551615 (ascii "7 7") = (0, 0) :=
  ⟨by decide,
    (decode_sentinel_on_empty_run 18446744073709551615).1 (ascii "7 7") (Or.inl (by decide))⟩

/-- C13: lenient scan. For every string, decoding it gives the same result as decoding it
with every byte that is neither a letter nor a digit removed; `A 1` and `A1` both decode to
(1,1). -/
theorem decode_lenient_scan (ULONG_MAX : Nat) :
    (∀ s : Str, s_cellAddressToRowCol ULONG_MAX s =
      s_cellAddressToRowCol ULONG_MAX (s.filter (fun c => isalpha c || isdigit c))) ∧
    (4294967295 ≤ ULONG_MAX →
      s_cellAddressToRowCol ULONG_MAX (ascii "A 1") = (1, 1) ∧
      s_cellAddressToRowCol ULONG_MAX (ascii "A1") = (1, 1)) := by
  have main : ∀ s : Str, s_cellAddressToRowCol ULONG_MAX s =
      s_cellAddressToRowCol ULONG_MAX (s.filter (fun c => isalpha c || isdigit c)) := by
    intro s
    obtain ⟨h1, h2⟩ := filter_alpha_of_kept s
    rw [cellAddressToRowCol_eq, cellAddressToRowCol_eq ULONG_MAX (s.filter _), h1, h2]
  refine ⟨main, fun hU => ⟨?_, decode_A1 ULONG_MAX hU⟩⟩
  rw [main (ascii "A 1"),
    show (ascii "A 1").filter (fun c => isalpha c || isdigit c) = ascii "A1" from by decide]
  exact decode_A1 ULONG_MAX hU

/-- Witness of C13 with a 32-bit `unsigned long`. -/
theorem decode_lenient_scan_witness :
    s_cellAddressToRowCol 4294967295 (ascii "A 1") = (1, 1) ∧
      s_cellAddressToRowCol 4294967295 (ascii "A1") = (1, 1) :=
  (decode_lenient_scan 4294967295).2 (by decide)

/-- C15, as stated, fails: in `1A` a digit stands before the letter and in `A1B` a letter
follows the digit, so neither is a run of letters followed by a run of digits, yet `1A`
decodes to (1,1) and `A1B` to (1,28), not to the sentinel, whatever the width of
`unsigned long`. -/
theorem letters_then_digits_counterexample :
    lettersThenDigits (ascii "1A") = false ∧ lettersThenDigits (ascii "A1B") = false ∧
    lettersThenDigits (ascii "A1") = true ∧
    s_cellAddressToRowCol 4294967295 (ascii "1A") = (1, 1) ∧
    s_cellAddressToRowCol 18446744073709551615 (ascii "1A") = (1, 1) ∧
    s_cellAddressToRowCol 4294967295 (ascii "A1B") = (1, 28) ∧
    s_cellAddressToRowCol 18446744073709551615 (ascii "A1B") = (1, 28) := by
  refine ⟨by decide, by decide, by decide, by decide, by decide, by decide, by decide⟩

/-- C15, amended: decoding takes the column from all the letters of the address, in their
order, and the row from all its digits, in their order, wherever they stand: every string
decodes like its letters followed by its digits. So `1A` decodes like `A1` to (1,1) and `A1B`
like `AB1` to (1,28); a digit before a letter is not rejected. -/
theorem decode_letters_and_digits_anywhere (ULONG_MAX : Nat) :
    (∀ s : Str, s_cellAddressToRowCol ULONG_MAX s =
      s_cellAddressToRowCol ULONG_MAX (s.filter isalpha ++ s.filter isdigit)) ∧
    (4294967295 ≤ ULONG_MAX →
      s_cellAddressToRowCol ULONG_MAX (ascii "1A") = (1, 1) ∧
      s_cellAddressToRowCol ULONG_MAX (ascii "A1B") = (1, 28)) := by
  have main : ∀ s : Str, s_cellAddressToRowCol ULONG_MAX s =
      s_cellAddressToRowCol ULONG_MAX (s.filter isalpha ++ s.filter isdigit) := by
    intro s
    obtain ⟨h1, h2⟩ := filter_letters_append_digits s
    rw [cellAddressToRowCol_eq, cellAddressToRowCol_eq ULONG_MAX (_ ++ _), h1, h2]
  refine ⟨main, fun hU => ⟨?_, ?_⟩⟩
  · rw [main (ascii "1A"),
      show (ascii "1A").filter isalpha ++ (ascii "1A").filter isdigit = ascii "A1" from
        by decide]
    exact decode_A1 ULONG_MAX hU
  · rw [main (ascii "A1B"),
      show (ascii "A1B").filter isalpha ++ (ascii "A1B").filter isdigit =
        s_getCellAddress [] 1 28 from by decide]
    exact cellAddressToRowCol_getCellAddress ULONG_MAX [] 1 28 hU (by decide) (by decide)
      (by decide) (by decide)

/-- Witness of C15 (amended) with a 32-bit `unsigned long`. -/
theorem decode_letters_and_digits_anywhere_witness :
    s_cellAddressToRowCol 4294967295 (ascii "1A") = (1, 1) ∧
      s_cellAddressToRowCol 4294967295 (ascii "A1B") = (1, 28) :=
  (decode_letters_and_digits_anywhere 4294967295).2 (by decide)

/-! ## Theorems on colour fields and on batches -/

theorem decodedColour_wrong_length (U : Nat) (hex : Str) (hl : hex.length ≠ 6) :
    decodedColour U hex = (0, 0, 0) := by
  simp [decodedColour, hexToRgb_wrong_length U hex hl]

/-- C11, as stated, fails: in `@A1$` a `$` follows the `@` and in `@A1%` a `%` does, but the
colour text is empty and the edit sets no colour at all, neither black nor any other. -/
theorem colour_presence_counterexample :
    36 ∈ afterFirst 64 (ascii "@A1$") ∧
    parse_cell_instruction 4294967295 (ascii "@A1$") = .ok (.edit
      { row := 1, col := 1, content := none, alignment := none, bold := none, italic := none,
        underline := none, foreground := none, background := none }) ∧
    37 ∈ afterFirst 64 (ascii "@A1%") ∧
    parse_cell_instruction 4294967295 (ascii "@A1%") = .ok (.edit
      { row := 1, col := 1, content := none, alignment := none, bold := none, italic := none,
        underline := none, foreground := none, background := none }) := by
  refine ⟨by decide, by decide, by decide, by decide⟩

/-- C11, amended: for every instruction that parses to an edit, the foreground colour is
present exactly when a `$` occurs after the `@` anchor and the extracted foreground text is
not empty, and the background colour is present exactly when a `%` occurs after the `@`
anchor and the extracted background text is not empty; a present colour field whose text is
not six bytes long gives black. So `@A1$ZZ` gives a black foreground, and `@A1$`, whose
colour text is empty, gives none. -/
theorem colour_presence (ULONG_MAX : Nat) (hU : 4294967295 ≤ ULONG_MAX) :
    (∀ (s : Str) (e : CellEdit), s.length < npos →
      parse_cell_instruction ULONG_MAX s = .ok (.edit e) →
      ∃ f : Fields, extractFields s = .ok (some f) ∧
        (e.foreground.isSome = true ↔ 36 ∈ afterFirst 64 s ∧ f.fg_color ≠ []) ∧
        (e.background.isSome = true ↔ 37 ∈ afterFirst 64 s ∧ f.bg_color ≠ []) ∧
        (f.fg_color ≠ [] → f.fg_color.length ≠ 6 → e.foreground = some (0, 0, 0)) ∧
        (f.bg_color ≠ [] → f.bg_color.length ≠ 6 → e.background = some (0, 0, 0))) ∧
    (∃ e, parse_cell_instruction ULONG_MAX (ascii "@A1$ZZ") = .ok (.edit e) ∧
      e.foreground = some (0, 0, 0)) ∧
    (∃ e, parse_cell_instruction ULONG_MAX (ascii "@A1$") = .ok (.edit e) ∧
      e.foreground = none) := by
  refine ⟨?_, ?_, ?_⟩
  · intro s e hlen he
    obtain ⟨p1, p2⟩ := parse_spec ULONG_MAX hU s hlen
    by_cases h : 64 ∈ s
    · obtain ⟨ce, _, hf⟩ := (extractFields_spec s hlen).2 h
      have hp := p2 h
      rw [he] at hp
      by_cases hinv : (s_cellAddressToRowCol ULONG_MAX (addressField s)).1 = 0 ∨
          (s_cellAddressToRowCol ULONG_MAX (addressField s)).2 = 0
      · rw [if_pos hinv] at hp
        simp at hp
      · rw [if_neg hinv] at hp
        simp only [Except.ok.injEq, ParseResult.edit.injEq] at hp
        subst hp
        refine ⟨_, hf, ?_, ?_, ?_, ?_⟩
        · simp only
          constructor
          · intro hs
            by_cases hne : anchoredField 36 notStop1 (afterFirst 64 s) = []
            · rw [if_pos hne] at hs
              simp at hs
            · refine ⟨?_, hne⟩
              by_contra hn
              exact hne (anchoredField_absent 36 notStop1 _ hn)
          · rintro ⟨_, hne⟩
            rw [if_neg hne]
            rfl
        · simp only
          constructor
          · intro hs
            by_cases hne : afterFirst 37 (afterFirst 64 s) = []
            · rw [if_pos hne] at hs
              simp at hs
            · refine ⟨?_, hne⟩
              by_contra hn
              exact hne (afterFirst_of_not_mem 37 _ hn)
          · rintro ⟨_, hne⟩
            rw [if_neg hne]
            rfl
        · intro hne hl
          simp only at hne hl ⊢
          rw [if_neg hne, decodedColour_wrong_length ULONG_MAX _ hl]
        · intro hne hl
          simp only at hne hl ⊢
          rw [if_neg hne, decodedColour_wrong_length ULONG_MAX _ hl]
    · have hp := p1 h
      rw [he] at hp
      simp at hp
  · refine ⟨_, parse_of_valid_address ULONG_MAX hU (ascii "@A1$ZZ") (by decide) (by decide) 1 1
      (by rw [show addressField (ascii "@A1$ZZ") = ascii "A1" from by decide]
          exact decode_A1 ULONG_MAX hU) (by decide) (by decide), ?_⟩
    show (if anchoredField 36 notStop1 (afterFirst 64 (ascii "@A1$ZZ")) = [] then none
      else some (decodedColour ULONG_MAX
        (anchoredField 36 notStop1 (afterFirst 64 (ascii "@A1$ZZ"))))) = some (0, 0, 0)
    rw [show anchoredField 36 notStop1 (afterFirst 64 (ascii "@A1$ZZ")) = ascii "ZZ" from
      by decide, if_neg (by decide), decodedColour_wrong_length ULONG_MAX _ (by decide)]
  · refine ⟨_, parse_of_valid_address ULONG_MAX hU (ascii "@A1$") (by decide) (by decide) 1 1
      (by rw [show addressField (ascii "@A1$") = ascii "A1" from by decide]
          exact decode_A1 ULONG_MAX hU) (by decide) (by decide), ?_⟩
    show (if anchoredField 36 notStop1 (afterFirst 64 (ascii "@A1$")) = [] then none
      else some (decodedColour ULONG_MAX
        (anchoredField 36 notStop1 (afterFirst 64 (ascii "@A1$"))))) = none
    rw [if_pos (by decide)]

/-- Witness of C11 (amended) with a 32-bit `unsigned long` on `@A1$ZZ`: its edit has a black
foreground and no background. -/
theorem colour_presence_witness :
    ∃ f : Fields, extractFields (ascii "@A1$ZZ") = .ok (some f) ∧
      ((some ((0, 0, 0) : Nat × Nat × Nat)).isSome = true ↔
        36 ∈ afterFirst 64 (ascii "@A1$ZZ") ∧ f.fg_color ≠ []) ∧
      ((none : Option (Nat × Nat × Nat)).isSome = true ↔
        37 ∈ afterFirst 64 (ascii "@A1$ZZ") ∧ f.bg_color ≠ []) ∧
      (f.fg_color ≠ [] → f.fg_color.length ≠ 6 →
        some ((0, 0, 0) : Nat × Nat × Nat) = some (0, 0, 0)) ∧
      (f.bg_color ≠ [] → f.bg_color.length ≠ 6 →
        (none : Option (Nat × Nat × Nat)) = some (0, 0, 0)) :=
  (colour_presence 4294967295 (by decide)).1 (ascii "@A1$ZZ")
    { row := 1, col := 1, content := none, alignment := none, bold := none, italic := none,
      underline := none, foreground := some (0, 0, 0), background := none }
    (by decide) (by decide)

/-- One iteration never throws, and its edit is the edit of the instruction taken alone. -/
theorem processInstruction_total (U : Nat) (hU : 4294967295 ≤ U) (s : Str)
    (hlen : s.length < npos) :
    ∃ o : Outcome, processInstruction U s = .ok o ∧ o.edit? = instructionEdit U s := by
  have hok : ∃ r, parse_cell_instruction U s = .ok r := by
    obtain ⟨p1, p2⟩ := parse_spec U hU s hlen
    by_cases h : 64 ∈ s
    · exact ⟨_, p2 h⟩
    · exact ⟨_, p1 h⟩
  obtain ⟨r, hr⟩ := hok
  cases ho : processInstruction U s with
  | error err =>
    rw [parse_cell_instruction, ho] at hr
    simp [Except.map] at hr
  | ok o =>
    refine ⟨o, rfl, ?_⟩
    unfold instructionEdit parse_cell_instruction
    rw [ho]
    cases o <;> rfl

/-- The loop on an array of strings never throws, and its edits are the edits of the
instructions taken alone, rejected ones left out, in order. -/
theorem loop_edits (U : Nat) (hU : 4294967295 ≤ U) (l : List Str)
    (hl : ∀ s ∈ l, s.length < npos) :
    batchEdits U (l.map CellJson.string) = .ok (l.filterMap (instructionEdit U)) := by
  have key : ∃ os : List Outcome,
      set_cells_by_array_handler.loop U (l.map CellJson.string) = .ok os ∧
        os.filterMap Outcome.edit? = l.filterMap (instructionEdit U) := by
    induction l with
    | nil => exact ⟨[], rfl, rfl⟩
    | cons s rest ih =>
      obtain ⟨os, h1, h2⟩ := ih (fun t ht => hl t (by simp [ht]))
      obtain ⟨o, g1, g2⟩ := processInstruction_total U hU s (hl s (by simp))
      refine ⟨o :: os, ?_, ?_⟩
      · simp only [List.map_cons, set_cells_by_array_handler.loop, g1, h1, Except.bind,
          Except.map]
      · simp only [List.filterMap_cons, g2, h2]
  obtain ⟨os, h1, h2⟩ := key
  simp only [batchEdits, h1, Except.map, h2]

/-- C14: batch resilience. For every sequence of instruction strings the loop never throws and
the edits it makes are exactly the edits of the individually valid instructions, in their
original order; an instruction rejected as MissingAddress or InvalidAddress contributes no
edit and leaves the edits of the instructions before and after it unchanged. -/
theorem batch_resilience (ULONG_MAX : Nat) (hU : 4294967295 ≤ ULONG_MAX) :
    (∀ l : List Str, (∀ s ∈ l, s.length < npos) →
      batchEdits ULONG_MAX (l.map CellJson.string) =
        .ok (l.filterMap (instructionEdit ULONG_MAX))) ∧
    (∀ (xs ys : List Str) (bad : Str),
      (∀ s ∈ xs, s.length < npos) → (∀ s ∈ ys, s.length < npos) → bad.length < npos →
      (parse_cell_instruction ULONG_MAX bad = .ok .MissingAddress ∨
        parse_cell_instruction ULONG_MAX bad = .ok .InvalidAddress) →
      batchEdits ULONG_MAX ((xs ++ bad :: ys).map CellJson.string) =
        .ok (xs.filterMap (instructionEdit ULONG_MAX) ++
          ys.filterMap (instructionEdit ULONG_MAX)) ∧
      batchEdits ULONG_MAX (xs.map CellJson.string) =
        .ok (xs.filterMap (instructionEdit ULONG_MAX)) ∧
      batchEdits ULONG_MAX (ys.map CellJson.string) =
        .ok (ys.filterMap (instructionEdit ULONG_MAX))) := by
  refine ⟨fun l hl => loop_edits ULONG_MAX hU l hl, ?_⟩
  intro xs ys bad hxs hys hbad hrej
  have hnone : instructionEdit ULONG_MAX bad = none := by
    unfold instructionEdit
    rcases hrej with h | h <;> rw [h]
  have hall : ∀ s ∈ xs ++ bad :: ys, s.length < npos := by
    intro s hs
    rcases List.mem_append.1 hs with h | h
    · exact hxs s h
    · rcases List.mem_cons.1 h with rfl | h
      · exact hbad
      · exact hys s h
  refine ⟨?_, loop_edits ULONG_MAX hU xs hxs, loop_edits ULONG_MAX hU ys hys⟩
  rw [loop_edits ULONG_MAX hU _ hall, List.filterMap_append, List.filterMap_cons, hnone]

/-- Witness of C14 with a 32-bit `unsigned long`: in the batch `'a'@A1`, `'hello'`, `'b'@B2`
the second instruction has no `@`; the batch makes the edits of the first and of the third,
in that order. -/
theorem batch_resilience_witness :
    batchEdits 4294967295
        ([ascii "'a'@A1", ascii "'hello'", ascii "'b'@B2"].map CellJson.string) =
      .ok [{ row := 1, col := 1, content := some (ascii "a"), alignment := none, bold := none,
             italic := none, underline := none, foreground := none, background := none },
           { row := 2, col := 2, content := some (ascii "b"), alignment := none, bold := none,
             italic := none, underline := none, foreground := none, background := none }] :=
  (batch_resilience 4294967295 (by decide)).1
    [ascii "'a'@A1", ascii "'hello'", ascii "'b'@B2"] (by decide)

end ExcelAutoCpp
